import Mathlib

/-!
# Shallow embedding of `biosppy/signals/hrv.py`

Heart-Rate Variability feature extraction: interval computation, RRI
filtering, the duration-gated feature families of the pipeline orchestrator,
the frequency-band aggregator, the geometrical (histogram-triangle) solver
and the two entropy estimators.

Modelling conventions:
* IEEE doubles are modelled as rationals (`ℚ`); real-valued results that
  genuinely need `log`/`sqrt` live in `ℝ` on top of rational cores.
* `numpy` arrays are `List ℚ`; a raised Python exception is an `Except`.
* `utils.ReturnTuple` is an ordered mapping; the claims only touch which
  feature names it holds, so it is modelled as the ordered list of keys.
* The smoothness-priors detrending primitive (`tools.detrend_smoothness_priors`)
  and `scipy.signal.welch` are external collaborators (outside this module);
  they influence feature *values* but none of the gating or counting
  behaviour the claims are about.
-/

namespace HRV

/-- `np.diff`: successive differences (`l[i+1] - l[i]`). -/
def diffs (l : List ℚ) : List ℚ := (l.tail.zip l).map (fun p => p.1 - p.2)

/-- `np.min` of a list; numpy raises on an empty array, the `0` default is a
junk value never relied upon. -/
def listMin : List ℚ → ℚ
  | [] => 0
  | x :: xs => xs.foldl min x

/-- `np.max` of a list; junk value `0` for the empty list. -/
def listMax : List ℚ → ℚ
  | [] => 0
  | x :: xs => xs.foldl max x

/-! ## `compute_rri` (hrv.py lines 137-163) -/

/-- `compute_rri`: RR intervals in ms from R-peak indices
(`rri = 1000 * np.diff(rpeaks) / sampling_rate`), together with the
physiological-warning flag (`warnings.warn` fires when
`rri.min() < 400 or rri.min() > 1400`).  The RRI sequence is returned in
either case — the warning is non-fatal. -/
def compute_rri (rpeaks : List ℚ) (sampling_rate : ℚ) : List ℚ × Bool :=
  let rri := (diffs rpeaks).map (fun d => 1000 * d / sampling_rate)
  (rri, decide (listMin rri < 400) || decide (1400 < listMin rri))

/-! ## `rri_filter` (hrv.py lines 166-183) -/

/-- `rri_filter`: keep the intervals strictly below the threshold
(`rri[np.where(rri < threshold)]`); the default threshold is 1200 ms. -/
def rri_filter (rri : List ℚ) (threshold : ℚ) : List ℚ :=
  rri.filter (fun x => decide (x < threshold))

/-! ## Frequency bands and the Welch frequency grid -/

/-- Is frequency `i` selected for the band `[lo, hi]` (both ends inclusive:
`(frequencies >= lo) & (frequencies <= hi)`)? -/
def inBand (frequencies : List ℚ) (lo hi : ℚ) (i : ℕ) : Bool :=
  decide (lo ≤ frequencies.getD i 0) && decide (frequencies.getD i 0 ≤ hi)

/-- `np.argwhere((frequencies >= lo) & (frequencies <= hi)).reshape(-1)`:
the selected indices, in ascending order. -/
def bandIdx (frequencies : List ℚ) (lo hi : ℚ) : List ℕ :=
  (List.range frequencies.length).filter (inBand frequencies lo hi)

/-- The module-level band table `FBANDS` (hrv.py lines 31-36): the ordered
list of `(name, (low, high))` items. -/
def FBANDS : List (String × ℚ × ℚ) :=
  [("ulf", 0, 3/1000), ("vlf", 3/1000, 1/25), ("lf", 1/25, 3/20),
   ("hf", 3/20, 2/5), ("vhf", 2/5, 1/2)]

/-- The frequency axis of `scipy.signal.welch(x, fs, nperseg=nperseg)`:
`np.fft.rfftfreq(nperseg, 1/fs)`, i.e. `k * fs / nperseg` for
`k = 0 .. nperseg / 2`.  The power values are estimated from the data, but
the axis is this fixed grid. -/
def welchFreqs (nperseg : ℕ) (fs : ℚ) : List ℚ :=
  (List.range (nperseg / 2 + 1)).map (fun k : ℕ => (k : ℚ) * fs / (nperseg : ℚ))

/-! ## The feature families and their gates (hrv.py `hrv`,
`hrv_timedomain`, `hrv_frequencydomain`, `hrv_nonlinear`)

The orchestrator replaces the signal duration by `np.inf` when
`parameters == 'all'`; `none` models that infinity.  Python exception
classes matter: the orchestrator catches `ValueError` only, so any other
exception escapes the whole `hrv` call. -/

/-- The exception classes raised by this module and the libraries it calls. -/
inductive PyErr where
  | valueError : PyErr
  | keyError : PyErr
  | indexError : PyErr
  | zeroDivisionError : PyErr
  deriving Repr, DecidableEq

/-- Signal duration in seconds; `none` models `np.inf`. -/
abbrev Duration := Option ℚ

/-- `duration < c` on the extended duration (`np.inf < c` is false). -/
def durLT (d : Duration) (c : ℚ) : Bool :=
  match d with
  | none => false
  | some x => decide (x < c)

/-- `duration >= c` on the extended duration (`np.inf >= c` is true). -/
def durGE (d : Duration) (c : ℚ) : Bool :=
  match d with
  | none => true
  | some x => decide (c ≤ x)

@[simp] theorem durLT_none (c : ℚ) : durLT none c = false := rfl

@[simp] theorem durLT_some (d c : ℚ) : durLT (some d) c = decide (d < c) := rfl

@[simp] theorem durGE_none (c : ℚ) : durGE none c = true := rfl

@[simp] theorem durGE_some (d c : ℚ) : durGE (some d) c = decide (c ≤ d) := rfl

/-- Keys appended by `hrv_timedomain` in its `duration >= 10` block. -/
def timeKeys10 : List String :=
  ["hr", "hr_min", "hr_max", "hr_minmax", "hr_avg", "rr_mean", "rmssd"]

/-- `hrv_timedomain`, key-and-error view (hrv.py lines 186-291).  The
feature *values* depend on the external length-preserving detrending
primitive and are not needed by any claim; the emitted key sequence and
every in-module exception path are modelled:
* `duration < 10`: the explicit `ValueError` gate (line 244);
* an empty sequence at `duration >= 10`: `hr.min()` on an empty array
  raises `ValueError` (line 256);
* a single interval at `duration >= 20`: `pnn50 = 100 * (nn50 / nntot)`
  divides by `nntot = len(np.diff(rri_det)) = 0` (detrending preserves
  length), a `ZeroDivisionError` (line 275);
* a constant sequence at `duration >= 90`: `compute_geometrical` is called
  on the undetrended `rri` argument (line 287) and builds the single-edge
  bin array `np.arange(tmin, tmax + binsize, binsize)` with `tmax = tmin`,
  so the histogram has no bins and `np.max` of the empty count array raises
  `ValueError` (line 611); a non-constant sequence yields at least two edges
  and the geometrical computation completes (its interpolants are evaluated
  strictly inside `[tmin, tmax + binsize]`).
`duration` is the caller-supplied value (the orchestrator always passes
one; the `duration=None` recompute path is not exercised by the claims). -/
def hrv_timedomain_keys (rri : List ℚ) (duration : Duration) :
    Except PyErr (List String) :=
  if durLT duration 10 then Except.error PyErr.valueError
  else if durGE duration 10 ∧ rri = [] then Except.error PyErr.valueError
  else if durGE duration 20 ∧ rri.length ≤ 1 then Except.error PyErr.zeroDivisionError
  else if durGE duration 90 ∧ listMax rri ≤ listMin rri then Except.error PyErr.valueError
  else
    Except.ok ((if durGE duration 10 then timeKeys10 else []) ++
      (if durGE duration 20 then ["nn50", "pnn50"] else []) ++
      (if durGE duration 60 then ["sdnn"] else []) ++
      (if durGE duration 90 then ["hti", "tinn"] else []))

/-- `hrv_frequencydomain`, key-and-error view (hrv.py lines 294-401).  The
spectral *power values* come from the external Welch estimator, but which
keys appear is decided in-module by the Welch frequency grid:
* `duration < 20`: the explicit `ValueError` gate (line 356);
* an empty sequence: `t -= t[0]` on the empty cumulative-sum axis raises
  `IndexError` (line 365);
* fewer than 4 intervals: cubic `interp1d` needs at least 4 points and
  raises `ValueError` (line 366);
* otherwise the zero-origined axis ends at `sum(rri) - rri[0]`, the 4 Hz
  resampling grid `np.arange(0, t[-1], 1000/4)` has
  `ceil((sum(rri) - rri[0]) / 250)` samples, `welch` caps `nperseg = 300`
  at that length (the detrending of the resampled series is external and
  length-preserving), and the spectrum lives on `welchFreqs`;
* `compute_fbands` silently skips a band whose index selection is empty, so
  the later lookups `fb_out['lf_pwr']` and `fb_out['hf_pwr']`
  (lines 386-388) fail on a missing name whenever the `lf` (resp. `hf`)
  selection is empty.  The named-result container is outside this module
  (the spec treats it as an ordered mapping), so the missing-name lookup is
  modelled as a non-`ValueError` exception; no theorem below depends on the
  exact class, only on it not being the `ValueError` the orchestrator
  catches. -/
def hrv_frequencydomain_keys (rri : List ℚ) (duration : Duration) :
    Except PyErr (List String) :=
  if durLT duration 20 then Except.error PyErr.valueError
  else if rri = [] then Except.error PyErr.indexError
  else if rri.length < 4 then Except.error PyErr.valueError
  else
    let nperseg := min 300 ((⌈(rri.sum - rri.headD 0) / 250⌉).toNat)
    let freqs := welchFreqs nperseg 4
    let ks := FBANDS.filterMap (fun b =>
      if bandIdx freqs b.2.1 b.2.2 = [] then none else some b.1)
    if "lf" ∉ ks then Except.error PyErr.keyError
    else if "hf" ∉ ks then Except.error PyErr.keyError
    else Except.ok
      ((ks.flatMap (fun name => [name ++ "_pwr", name ++ "_peak", name ++ "_rpwr"])) ++
        ["lf_hf", "lf_nu", "hf_nu"])

/-- `hrv_nonlinear`, key-and-error view (hrv.py lines 404-469): the explicit
`ValueError` gate at `duration < 90`; past it the Poincaré and
sample-entropy computations raise no in-module exception (numpy float
division by zero yields inf/nan with a warning only, and an empty or short
sequence makes the template sums empty, not an error), and `appen` is
appended exactly when `len(rri) >= 800`. -/
def hrv_nonlinear_keys (rri : List ℚ) (duration : Duration) :
    Except PyErr (List String) :=
  if durLT duration 90 then Except.error PyErr.valueError
  else
    Except.ok ((if durGE duration 90 then ["s", "sd1", "sd2", "sd12", "sd21", "sampen"] else []) ++
      (if 800 ≤ rri.length then ["appen"] else []))

/-! ## The pipeline orchestrator `hrv` (hrv.py lines 39-134) -/

/-- Result of the orchestrator: the RRI sequence it stores in the output,
the ordered key list, and one flag per feature family recording whether the
family's `ValueError` was caught (the printed "not computed" notice). -/
structure HrvOut where
  rri : List ℚ
  keys : List String
  tdError : Bool
  fdError : Bool
  nlError : Bool
  deriving Repr, DecidableEq

/-- The admissible values of the `parameters` selector. -/
def parametersList : List String := ["auto", "time", "frequency", "non-linear", "all"]

/-- One family-level `try/except ValueError` block of the orchestrator: a
caught `ValueError` becomes the printed "not computed" notice flag; any
other exception escapes the whole call. -/
def catchVE (e : Except PyErr (List String)) : Except PyErr (List String × Bool) :=
  match e with
  | Except.ok ks => Except.ok (ks, false)
  | Except.error PyErr.valueError => Except.ok ([], true)
  | Except.error err => Except.error err

/-- The orchestrator `hrv`, on the RRI-input path (`rri` given, so `rpeaks`
is not consulted).  Mirrors hrv.py lines 69-134: selector validation
(`ValueError`), the duration computed from the *unfiltered* sequence,
optional `rri_filter`, `duration = np.inf` when the selector is `'all'`,
and the three per-family `try/except ValueError` blocks (any exception
other than `ValueError` propagates and aborts the whole call).  The
`detrend_rri` toggle only feeds the external length-preserving detrending
primitive (it changes feature values, not gating, keys or exceptions) and
is omitted. -/
def hrv (rri : List ℚ) (parameters : String) (filter_rri : Bool) :
    Except PyErr HrvOut :=
  if parameters ∈ parametersList then
    let duration := rri.sum / 1000
    let rri2 := if filter_rri then rri_filter rri 1200 else rri
    let dur : Duration := if parameters = "all" then none else some duration
    match (if parameters ∈ ["time", "auto", "all"] then
        catchVE (hrv_timedomain_keys rri2 dur) else Except.ok ([], false)) with
    | Except.error e => Except.error e
    | Except.ok td =>
      match (if parameters ∈ ["frequency", "auto", "all"] then
          catchVE (hrv_frequencydomain_keys rri2 dur) else Except.ok ([], false)) with
      | Except.error e => Except.error e
      | Except.ok fd =>
        match (if parameters ∈ ["non-linear", "auto", "all"] then
            catchVE (hrv_nonlinear_keys rri2 dur) else Except.ok ([], false)) with
        | Except.error e => Except.error e
        | Except.ok nl =>
          Except.ok ⟨rri2, "rri" :: (td.1 ++ fd.1 ++ nl.1), td.2, fd.2, nl.2⟩
  else Except.error PyErr.valueError

end HRV

namespace HRV

/-! ## Claim C6: `rri_filter` is an order-preserving strict-threshold filter -/

/-- C6: `rri_filter` returns an order-preserving subsequence of its input in
which every retained value is strictly below the threshold, and the filter is
idempotent at the same threshold. -/
theorem rri_filter_sublist_lt_idem (rri : List ℚ) (threshold : ℚ) :
    List.Sublist (rri_filter rri threshold) rri ∧
    (∀ x ∈ rri_filter rri threshold, x < threshold) ∧
    rri_filter (rri_filter rri threshold) threshold = rri_filter rri threshold := by
  refine ⟨List.filter_sublist _, ?_, ?_⟩
  · intro x hx
    simpa using List.of_mem_filter hx
  · apply List.filter_eq_self.mpr
    intro x hx
    exact List.mem_filter.mp hx |>.2

/-! ## Claim C8: the physiological warning of `compute_rri` -/

/-- C8 counterexample: for beat indices `[0, 500, 2000]` at 1000 Hz the RRI
sequence is `[500, 1500]`; 1500 ms is outside `[400, 1400]` yet no warning is
emitted, because the code tests `rri.min()` only. -/
theorem compute_rri_warning_cex :
    (compute_rri [0, 500, 2000] 1000).2 = false ∧
    (1500 : ℚ) ∈ (compute_rri [0, 500, 2000] 1000).1 ∧
    ¬ ((400 : ℚ) ≤ 1500 ∧ (1500 : ℚ) ≤ 1400) := by
  refine ⟨?_, ?_, by norm_num⟩
  · norm_num [compute_rri, diffs, listMin]
  · norm_num [compute_rri, diffs]

/-- C8 amended: the warning fires exactly when the *minimum* RRI falls
outside `[400, 1400]` ms (not when an arbitrary value does), and the input is
never rejected: the RRI sequence (of length `len(rpeaks) - 1`) is returned
regardless of the flag. -/
theorem compute_rri_warning_amended (rpeaks : List ℚ) (sampling_rate : ℚ)
    (h : 2 ≤ rpeaks.length) :
    (compute_rri rpeaks sampling_rate).1.length = rpeaks.length - 1 ∧
    ((compute_rri rpeaks sampling_rate).2 = true ↔
      listMin (compute_rri rpeaks sampling_rate).1 < 400 ∨
        1400 < listMin (compute_rri rpeaks sampling_rate).1) := by
  constructor
  · simp [compute_rri, diffs]
  · simp [compute_rri]

/-- Witness for C8 amended at beat indices `[0, 500, 1000]`, 1000 Hz. -/
theorem compute_rri_warning_amended_wit :
    2 ≤ ([0, 500, 1000] : List ℚ).length ∧
    ((compute_rri [0, 500, 1000] 1000).1.length = ([0, 500, 1000] : List ℚ).length - 1 ∧
    ((compute_rri [0, 500, 1000] 1000).2 = true ↔
      listMin (compute_rri [0, 500, 1000] 1000).1 < 400 ∨
        1400 < listMin (compute_rri [0, 500, 1000] 1000).1)) :=
  ⟨by norm_num, compute_rri_warning_amended [0, 500, 1000] 1000 (by norm_num)⟩

/-! ## Claim C7: the duration tiers of `hrv_timedomain` -/

/-- Does a direct extractor call raise? -/
def tdRaises (e : Except PyErr (List String)) : Bool :=
  match e with
  | .ok _ => false
  | .error _ => true

/-- The keys an extractor call emitted (none when it raised). -/
def keysOf (e : Except PyErr (List String)) : List String :=
  match e with
  | .ok ks => ks
  | .error _ => []

theorem foldl_min_replicate_self (n : ℕ) (x : ℚ) :
    (List.replicate n x).foldl min x = x := by
  induction n with
  | zero => rfl
  | succ n ih =>
    rw [List.replicate_succ, List.foldl_cons, min_self]
    exact ih

theorem foldl_max_replicate_self (n : ℕ) (x : ℚ) :
    (List.replicate n x).foldl max x = x := by
  induction n with
  | zero => rfl
  | succ n ih =>
    rw [List.replicate_succ, List.foldl_cons, max_self]
    exact ih

theorem listMin_replicate_succ (n : ℕ) (x : ℚ) :
    listMin (List.replicate (n + 1) x) = x := by
  rw [List.replicate_succ]
  exact foldl_min_replicate_self n x

theorem listMax_replicate_succ (n : ℕ) (x : ℚ) :
    listMax (List.replicate (n + 1) x) = x := by
  rw [List.replicate_succ]
  exact foldl_max_replicate_self n x

/-- C7 counterexample: the constant sequence of 113 × 800 ms lasts 90.4 s,
well past the 10 s gate, yet `hrv_timedomain` raises: at the
`duration >= 90` tier `compute_geometrical` builds a single-edge histogram
from the constant sequence and `np.max` of its empty count array raises
`ValueError` (hrv.py line 611).  So "raises an error if and only if
duration < 10 s" is false. -/
theorem hrv_timedomain_gate_iff_cex :
    ¬ ((List.replicate 113 (800 : ℚ)).sum / 1000 < 10) ∧
    hrv_timedomain_keys (List.replicate 113 (800 : ℚ))
        (some ((List.replicate 113 (800 : ℚ)).sum / 1000)) =
      Except.error PyErr.valueError := by
  have hsum : (List.replicate 113 (800 : ℚ)).sum = 90400 := by
    rw [List.sum_replicate]
    norm_num
  have hmin : listMin (List.replicate 113 (800 : ℚ)) = 800 :=
    listMin_replicate_succ 112 800
  have hmax : listMax (List.replicate 113 (800 : ℚ)) = 800 :=
    listMax_replicate_succ 112 800
  rw [hsum]
  constructor
  · norm_num
  · norm_num [hrv_timedomain_keys, hmin, hmax]

/-- C7 amended: the duration gate raises exactly when `duration < 10` s,
but duration alone does not decide success — the extractor also raises on
degenerate content (empty sequence; a single interval once `duration ≥ 20`;
a constant sequence once `duration ≥ 90`, through `compute_geometrical`).
For every sequence with at least two intervals that are not all equal the
original statement holds: it raises iff `duration < 10` s, and the tiers
are cumulative — `nn50`/`pnn50` exactly when `duration ≥ 20` s, `sdnn`
exactly when `duration ≥ 60` s, `hti`/`tinn` exactly when
`duration ≥ 90` s. -/
theorem hrv_timedomain_duration_tiers (rri : List ℚ) (d : ℚ)
    (hlen : 2 ≤ rri.length) (hnc : listMin rri < listMax rri) :
    (tdRaises (hrv_timedomain_keys rri (some d)) = true ↔ d < 10) ∧
    ("nn50" ∈ keysOf (hrv_timedomain_keys rri (some d)) ↔ 20 ≤ d) ∧
    ("pnn50" ∈ keysOf (hrv_timedomain_keys rri (some d)) ↔ 20 ≤ d) ∧
    ("sdnn" ∈ keysOf (hrv_timedomain_keys rri (some d)) ↔ 60 ≤ d) ∧
    ("hti" ∈ keysOf (hrv_timedomain_keys rri (some d)) ↔ 90 ≤ d) ∧
    ("tinn" ∈ keysOf (hrv_timedomain_keys rri (some d)) ↔ 90 ≤ d) := by
  have hne : ¬ rri = [] := by
    intro h
    rw [h] at hlen
    simp at hlen
  have hl1 : ¬ rri.length ≤ 1 := by omega
  have hcst : ¬ listMax rri ≤ listMin rri := not_le.mpr hnc
  by_cases h10 : d < 10 <;> by_cases h20 : (20 : ℚ) ≤ d <;>
    by_cases h60 : (60 : ℚ) ≤ d <;> by_cases h90 : (90 : ℚ) ≤ d
  all_goals first
    | (exfalso; linarith)
    | (simp [hrv_timedomain_keys, tdRaises, keysOf, timeKeys10, hne, hl1,
        hcst, h10, h20, h60, h90])

/-- Witness for C7 amended at `rri = [800, 810]`, `d = 95`. -/
theorem hrv_timedomain_duration_tiers_wit :
    (2 ≤ ([800, 810] : List ℚ).length ∧
      listMin [800, 810] < listMax [800, 810]) ∧
    ((tdRaises (hrv_timedomain_keys [800, 810] (some 95)) = true ↔ (95 : ℚ) < 10) ∧
     ("nn50" ∈ keysOf (hrv_timedomain_keys [800, 810] (some 95)) ↔ (20 : ℚ) ≤ 95) ∧
     ("pnn50" ∈ keysOf (hrv_timedomain_keys [800, 810] (some 95)) ↔ (20 : ℚ) ≤ 95) ∧
     ("sdnn" ∈ keysOf (hrv_timedomain_keys [800, 810] (some 95)) ↔ (60 : ℚ) ≤ 95) ∧
     ("hti" ∈ keysOf (hrv_timedomain_keys [800, 810] (some 95)) ↔ (90 : ℚ) ≤ 95) ∧
     ("tinn" ∈ keysOf (hrv_timedomain_keys [800, 810] (some 95)) ↔ (90 : ℚ) ≤ 95)) :=
  ⟨⟨by norm_num, by norm_num [listMin, listMax]⟩,
    hrv_timedomain_duration_tiers [800, 810] 95 (by norm_num)
      (by norm_num [listMin, listMax])⟩

/-! ## Claim C1: selector `'all'` versus the family hard minimums

The counterexample input is 11 × 800 ms plus one 810 ms interval: 9.61 s,
below every family duration minimum, yet long enough (and non-degenerate
enough) that all three families complete under the infinite duration the
orchestrator substitutes for `'all'`: the time-domain tiers all run (two or
more intervals, not all equal), and the 4 Hz resampling grid has
`ceil(8810/250) = 36` samples, so the Welch axis is `k/9` Hz with nonempty
`lf` and `hf` selections. -/

theorem cex_rri_filter :
    rri_filter [800, 800, 800, 800, 800, 800, 800, 800, 800, 800, 800, 810] 1200 =
      [800, 800, 800, 800, 800, 800, 800, 800, 800, 800, 800, 810] := by
  norm_num [rri_filter, List.filter]

theorem cex_nperseg :
    min 300 ((⌈(([800, 800, 800, 800, 800, 800, 800, 800, 800, 800, 800, 810] : List ℚ).sum -
        ([800, 800, 800, 800, 800, 800, 800, 800, 800, 800, 800, 810] : List ℚ).headD 0) /
        250⌉).toNat) = 36 := by
  have h1 : (([800, 800, 800, 800, 800, 800, 800, 800, 800, 800, 800, 810] : List ℚ).sum -
      ([800, 800, 800, 800, 800, 800, 800, 800, 800, 800, 800, 810] : List ℚ).headD 0) /
      250 = 881 / 25 := by
    norm_num
  rw [h1]
  have h2 : ⌈(881 / 25 : ℚ)⌉ = 36 := by
    rw [Int.ceil_eq_iff]
    norm_num
  rw [h2]
  rfl

theorem welchFreqs_length (nperseg : ℕ) (fs : ℚ) :
    (welchFreqs nperseg fs).length = nperseg / 2 + 1 := by
  simp [welchFreqs]

theorem getD_welchFreqs (nperseg : ℕ) (fs : ℚ) (i : ℕ) (h : i < nperseg / 2 + 1) :
    (welchFreqs nperseg fs).getD i 0 = (i : ℚ) * fs / (nperseg : ℚ) := by
  have h' : i < ((List.range (nperseg / 2 + 1)).map
      (fun k : ℕ => (k : ℚ) * fs / (nperseg : ℚ))).length := by
    simpa using h
  rw [welchFreqs, List.getD_eq_getElem _ _ h']
  simp

theorem getElem_welchFreqs (nperseg : ℕ) (fs : ℚ) (i : ℕ)
    (h : i < (welchFreqs nperseg fs).length) :
    (welchFreqs nperseg fs)[i] = (i : ℚ) * fs / (nperseg : ℚ) := by
  simp [welchFreqs]

theorem bandIdx_36_ulf : bandIdx (welchFreqs 36 4) 0 (3 / 1000) = [0] := by
  norm_num [bandIdx, inBand, welchFreqs_length, getD_welchFreqs, getElem_welchFreqs,
    show List.range 19 = [0, 1, 2, 3, 4, 5, 6, 7, 8, 9, 10, 11, 12, 13, 14, 15, 16, 17, 18]
      from rfl,
    List.filter]

theorem bandIdx_36_vlf : bandIdx (welchFreqs 36 4) (3 / 1000) (1 / 25) = [] := by
  norm_num [bandIdx, inBand, welchFreqs_length, getD_welchFreqs, getElem_welchFreqs,
    show List.range 19 = [0, 1, 2, 3, 4, 5, 6, 7, 8, 9, 10, 11, 12, 13, 14, 15, 16, 17, 18]
      from rfl,
    List.filter]

theorem bandIdx_36_lf : bandIdx (welchFreqs 36 4) (1 / 25) (3 / 20) = [1] := by
  norm_num [bandIdx, inBand, welchFreqs_length, getD_welchFreqs, getElem_welchFreqs,
    show List.range 19 = [0, 1, 2, 3, 4, 5, 6, 7, 8, 9, 10, 11, 12, 13, 14, 15, 16, 17, 18]
      from rfl,
    List.filter]

theorem bandIdx_36_hf : bandIdx (welchFreqs 36 4) (3 / 20) (2 / 5) = [2, 3] := by
  norm_num [bandIdx, inBand, welchFreqs_length, getD_welchFreqs, getElem_welchFreqs,
    show List.range 19 = [0, 1, 2, 3, 4, 5, 6, 7, 8, 9, 10, 11, 12, 13, 14, 15, 16, 17, 18]
      from rfl,
    List.filter]

theorem bandIdx_36_vhf : bandIdx (welchFreqs 36 4) (2 / 5) (1 / 2) = [4] := by
  norm_num [bandIdx, inBand, welchFreqs_length, getD_welchFreqs, getElem_welchFreqs,
    show List.range 19 = [0, 1, 2, 3, 4, 5, 6, 7, 8, 9, 10, 11, 12, 13, 14, 15, 16, 17, 18]
      from rfl,
    List.filter]

theorem cex_timedomain :
    hrv_timedomain_keys [800, 800, 800, 800, 800, 800, 800, 800, 800, 800, 800, 810] none =
      Except.ok ["hr", "hr_min", "hr_max", "hr_minmax", "hr_avg", "rr_mean", "rmssd",
        "nn50", "pnn50", "sdnn", "hti", "tinn"] := by
  norm_num [hrv_timedomain_keys, timeKeys10, listMin, listMax]
  intro h
  simp at h

theorem cex_frequencydomain :
    hrv_frequencydomain_keys
        [800, 800, 800, 800, 800, 800, 800, 800, 800, 800, 800, 810] none =
      Except.ok ["ulf_pwr", "ulf_peak", "ulf_rpwr", "lf_pwr", "lf_peak", "lf_rpwr",
        "hf_pwr", "hf_peak", "hf_rpwr", "vhf_pwr", "vhf_peak", "vhf_rpwr",
        "lf_hf", "lf_nu", "hf_nu"] := by
  simp only [hrv_frequencydomain_keys]
  rw [if_neg (by simp), if_neg (by simp), if_neg (by norm_num), cex_nperseg]
  rw [show FBANDS.filterMap (fun b =>
      if bandIdx (welchFreqs 36 4) b.2.1 b.2.2 = [] then none else some b.1) =
      ["ulf", "lf", "hf", "vhf"] from by
    simp only [FBANDS, List.filterMap_cons, List.filterMap_nil, bandIdx_36_ulf,
      bandIdx_36_vlf, bandIdx_36_lf, bandIdx_36_hf, bandIdx_36_vhf]
    simp]
  rw [if_neg (by simp), if_neg (by simp)]
  rfl

theorem cex_nonlinear :
    hrv_nonlinear_keys [800, 800, 800, 800, 800, 800, 800, 800, 800, 800, 800, 810] none =
      Except.ok ["s", "sd1", "sd2", "sd12", "sd21", "sampen"] := by
  norm_num [hrv_nonlinear_keys]

/-- Every key that `compute_fbands` can emit for the default band table is
one of the fifteen per-band names, whatever the frequency grid. -/
theorem fdKeys_mem (freqs : List ℚ) (s : String)
    (hs : s ∈ (FBANDS.filterMap (fun b =>
        if bandIdx freqs b.2.1 b.2.2 = [] then none else some b.1)).flatMap
      (fun name => [name ++ "_pwr", name ++ "_peak", name ++ "_rpwr"])) :
    s ∈ ["ulf_pwr", "ulf_peak", "ulf_rpwr", "vlf_pwr", "vlf_peak", "vlf_rpwr",
      "lf_pwr", "lf_peak", "lf_rpwr", "hf_pwr", "hf_peak", "hf_rpwr",
      "vhf_pwr", "vhf_peak", "vhf_rpwr"] := by
  rw [List.mem_flatMap] at hs
  obtain ⟨name, hname, hmem⟩ := hs
  rw [List.mem_filterMap] at hname
  obtain ⟨b, hb, hsome⟩ := hname
  have hname' : b.1 = name := by
    by_cases hc : bandIdx freqs b.2.1 b.2.2 = []
    · rw [if_pos hc] at hsome
      exact absurd hsome (by simp)
    · rw [if_neg hc] at hsome
      exact Option.some.inj hsome
  rw [← hname'] at hmem
  have hb5 : b.1 = "ulf" ∨ b.1 = "vlf" ∨ b.1 = "lf" ∨ b.1 = "hf" ∨ b.1 = "vhf" := by
    simp only [FBANDS, List.mem_cons, List.not_mem_nil, or_false] at hb
    rcases hb with rfl | rfl | rfl | rfl | rfl <;> simp
  rcases hb5 with h | h | h | h | h <;> rw [h] at hmem <;>
    simp only [List.mem_cons, List.not_mem_nil, or_false] at hmem <;>
    rcases hmem with rfl | rfl | rfl <;> decide

/-- C1 counterexample: the 9.61 s input (below the 10 s, 20 s and 90 s
minimums of all three families) under selector `'all'`: no family raises
its hard-minimum error, no notice flag is set, and the duration-gated keys
of every family are emitted, because the orchestrator substitutes
`duration = np.inf` before calling the families. -/
theorem hrv_all_hard_minimum_cex :
    ([800, 800, 800, 800, 800, 800, 800, 800, 800, 800, 800, 810] : List ℚ).sum / 1000 < 10 ∧
    (hrv [800, 800, 800, 800, 800, 800, 800, 800, 800, 800, 800, 810] "all" true).map
        (fun o => (o.tdError, o.fdError, o.nlError, decide ("hr" ∈ o.keys),
          decide ("hti" ∈ o.keys), decide ("lf_hf" ∈ o.keys),
          decide ("sampen" ∈ o.keys))) =
      Except.ok (false, false, false, true, true, true, true) := by
  constructor
  · norm_num
  · simp [hrv, parametersList, cex_rri_filter, cex_timedomain,
      cex_frequencydomain, cex_nonlinear, catchVE, Except.map]

/-- C1 amended: under selector `'all'` the orchestrator substitutes an
infinite duration before calling the families, so the hard per-family
duration minimums are never enforced: on any input where the families' own
content-dependent computations are defined (at least four intervals after
the optional filtering, not all equal, and nonempty `lf`/`hf` selections on
the Welch grid of the resampled signal), no family error is raised and
every duration-gated key is emitted even when the duration is below
10/20/90 s; the only surviving hard minimum is the length gate
`len(rri) ≥ 800` for `appen`. -/
theorem hrv_all_disables_hard_minimums (rri : List ℚ) (f : Bool)
    (h4 : 4 ≤ (if f then rri_filter rri 1200 else rri).length)
    (hnc : listMin (if f then rri_filter rri 1200 else rri) <
      listMax (if f then rri_filter rri 1200 else rri))
    (hlf : bandIdx (welchFreqs (min 300
        ((⌈((if f then rri_filter rri 1200 else rri).sum -
          (if f then rri_filter rri 1200 else rri).headD 0) / 250⌉).toNat)) 4)
        (1 / 25) (3 / 20) ≠ [])
    (hhf : bandIdx (welchFreqs (min 300
        ((⌈((if f then rri_filter rri 1200 else rri).sum -
          (if f then rri_filter rri 1200 else rri).headD 0) / 250⌉).toNat)) 4)
        (3 / 20) (2 / 5) ≠ []) :
    (hrv rri "all" f).map (fun o => (o.tdError, o.fdError, o.nlError,
        decide ("hr" ∈ o.keys), decide ("hti" ∈ o.keys),
        decide ("lf_hf" ∈ o.keys), decide ("sampen" ∈ o.keys),
        decide ("appen" ∈ o.keys))) =
      Except.ok (false, false, false, true, true, true, true,
        decide (800 ≤ (if f then rri_filter rri 1200 else rri).length)) := by
  set rri2 := if f then rri_filter rri 1200 else rri with hr2
  have hne : ¬ rri2 = [] := by
    intro h
    rw [h] at h4
    simp at h4
  have hl4 : ¬ rri2.length < 4 := by omega
  have htd : hrv_timedomain_keys rri2 none =
      Except.ok (timeKeys10 ++ ["nn50", "pnn50"] ++ ["sdnn"] ++ ["hti", "tinn"]) := by
    simp only [hrv_timedomain_keys]
    rw [if_neg (by simp), if_neg (by simp only [durGE_none, true_and]; exact hne),
      if_neg (by simp only [durGE_none, true_and]; omega),
      if_neg (by simp only [durGE_none, true_and]; exact not_le.mpr hnc)]
    simp
  have hkslf : "lf" ∈ FBANDS.filterMap (fun b =>
      if bandIdx (welchFreqs (min 300 ((⌈(rri2.sum - rri2.headD 0) / 250⌉).toNat)) 4)
          b.2.1 b.2.2 = [] then none else some b.1) :=
    List.mem_filterMap.mpr ⟨("lf", 1 / 25, 3 / 20), by norm_num [FBANDS],
      by simp only [if_neg hlf]⟩
  have hkshf : "hf" ∈ FBANDS.filterMap (fun b =>
      if bandIdx (welchFreqs (min 300 ((⌈(rri2.sum - rri2.headD 0) / 250⌉).toNat)) 4)
          b.2.1 b.2.2 = [] then none else some b.1) :=
    List.mem_filterMap.mpr ⟨("hf", 3 / 20, 2 / 5), by norm_num [FBANDS],
      by simp only [if_neg hhf]⟩
  have hfd : hrv_frequencydomain_keys rri2 none =
      Except.ok (((FBANDS.filterMap (fun b =>
          if bandIdx (welchFreqs (min 300 ((⌈(rri2.sum - rri2.headD 0) / 250⌉).toNat)) 4)
              b.2.1 b.2.2 = [] then none else some b.1)).flatMap
          (fun name => [name ++ "_pwr", name ++ "_peak", name ++ "_rpwr"])) ++
        ["lf_hf", "lf_nu", "hf_nu"]) := by
    simp only [hrv_frequencydomain_keys]
    rw [if_neg (by simp), if_neg hne, if_neg hl4,
      if_neg (fun hcon => hcon hkslf), if_neg (fun hcon => hcon hkshf)]
  have hnl : hrv_nonlinear_keys rri2 none =
      Except.ok (["s", "sd1", "sd2", "sd12", "sd21", "sampen"] ++
        (if 800 ≤ rri2.length then ["appen"] else [])) := by
    simp [hrv_nonlinear_keys]
  by_cases h800 : 800 ≤ rri2.length <;>
    simp [hrv, ← hr2, parametersList, htd, hfd, hnl, catchVE, Except.map,
      timeKeys10, h800]
  intro x name lo hi hmem hbe hnx
  subst hnx
  simp only [FBANDS, List.mem_cons, List.not_mem_nil, or_false,
    Prod.mk.injEq] at hmem
  rcases hmem with ⟨rfl, h1, h2⟩ | ⟨rfl, h1, h2⟩ | ⟨rfl, h1, h2⟩ |
    ⟨rfl, h1, h2⟩ | ⟨rfl, h1, h2⟩ <;> decide

/-- Witness for C1 amended at the 9.61 s input with filtering on. -/
theorem hrv_all_disables_hard_minimums_wit :
    (4 ≤ (if true then rri_filter
        [800, 800, 800, 800, 800, 800, 800, 800, 800, 800, 800, 810] 1200
      else [800, 800, 800, 800, 800, 800, 800, 800, 800, 800, 800, 810]).length ∧
     listMin (if true then rri_filter
        [800, 800, 800, 800, 800, 800, 800, 800, 800, 800, 800, 810] 1200
      else [800, 800, 800, 800, 800, 800, 800, 800, 800, 800, 800, 810]) <
      listMax (if true then rri_filter
        [800, 800, 800, 800, 800, 800, 800, 800, 800, 800, 800, 810] 1200
      else [800, 800, 800, 800, 800, 800, 800, 800, 800, 800, 800, 810]) ∧
     bandIdx (welchFreqs (min 300
        ((⌈((if true then rri_filter
            [800, 800, 800, 800, 800, 800, 800, 800, 800, 800, 800, 810] 1200
          else [800, 800, 800, 800, 800, 800, 800, 800, 800, 800, 800, 810]).sum -
          (if true then rri_filter
            [800, 800, 800, 800, 800, 800, 800, 800, 800, 800, 800, 810] 1200
          else [800, 800, 800, 800, 800, 800, 800, 800, 800, 800, 800, 810]).headD 0) /
          250⌉).toNat)) 4) (1 / 25) (3 / 20) ≠ [] ∧
     bandIdx (welchFreqs (min 300
        ((⌈((if true then rri_filter
            [800, 800, 800, 800, 800, 800, 800, 800, 800, 800, 800, 810] 1200
          else [800, 800, 800, 800, 800, 800, 800, 800, 800, 800, 800, 810]).sum -
          (if true then rri_filter
            [800, 800, 800, 800, 800, 800, 800, 800, 800, 800, 800, 810] 1200
          else [800, 800, 800, 800, 800, 800, 800, 800, 800, 800, 800, 810]).headD 0) /
          250⌉).toNat)) 4) (3 / 20) (2 / 5) ≠ []) ∧
    (hrv [800, 800, 800, 800, 800, 800, 800, 800, 800, 800, 800, 810] "all" true).map
        (fun o => (o.tdError, o.fdError, o.nlError,
          decide ("hr" ∈ o.keys), decide ("hti" ∈ o.keys),
          decide ("lf_hf" ∈ o.keys), decide ("sampen" ∈ o.keys),
          decide ("appen" ∈ o.keys))) =
      Except.ok (false, false, false, true, true, true, true,
        decide (800 ≤ (if true then rri_filter
            [800, 800, 800, 800, 800, 800, 800, 800, 800, 800, 800, 810] 1200
          else [800, 800, 800, 800, 800, 800, 800, 800, 800, 800, 800, 810]).length)) :=
  ⟨⟨by rw [if_pos rfl, cex_rri_filter]; norm_num,
    by rw [if_pos rfl, cex_rri_filter]; norm_num [listMin, listMax],
    by rw [if_pos rfl, cex_rri_filter, cex_nperseg, bandIdx_36_lf]; simp,
    by rw [if_pos rfl, cex_rri_filter, cex_nperseg, bandIdx_36_hf]; simp⟩,
   hrv_all_disables_hard_minimums
    [800, 800, 800, 800, 800, 800, 800, 800, 800, 800, 800, 810] true
    (by rw [if_pos rfl, cex_rri_filter]; norm_num)
    (by rw [if_pos rfl, cex_rri_filter]; norm_num [listMin, listMax])
    (by rw [if_pos rfl, cex_rri_filter, cex_nperseg, bandIdx_36_lf]; simp)
    (by rw [if_pos rfl, cex_rri_filter, cex_nperseg, bandIdx_36_hf]; simp)⟩

/-! ## Claim C9: gating duration is computed before filtering -/

/-- C9: in the orchestrator the family gates use the duration
`sum(rri)/1000` of the *unfiltered* input sequence (hrv.py line 89,
computed before `rri_filter` runs at lines 92-93), while the stored RRI
output and the family computations use the filtered sequence.  Stated on
the inputs whose family outcomes are decided by the gates alone — a
nonempty filtered sequence and an unfiltered duration below 20 s, so the
frequency and non-linear families stop at their duration gates and the
time-domain family is decided by the 10 s gate: its outcome is exactly the
test `sum(rri)/1000 < 10` on the *unfiltered* sum, even when the *filtered*
sum is far below 10 s (see the witness). -/
theorem hrv_duration_before_filter (rri : List ℚ)
    (hne : rri_filter rri 1200 ≠ [])
    (hd20 : rri.sum / 1000 < 20) :
    (hrv rri "auto" true).map (fun o => (o.rri, o.tdError, o.fdError, o.nlError,
        decide ("hr" ∈ o.keys))) =
      Except.ok (rri_filter rri 1200, decide (rri.sum / 1000 < 10), true, true,
        decide (¬ rri.sum / 1000 < 10)) := by
  have hfd : hrv_frequencydomain_keys (rri_filter rri 1200) (some (rri.sum / 1000)) =
      Except.error PyErr.valueError := by
    simp only [hrv_frequencydomain_keys]
    rw [if_pos (by simp [hd20])]
  have hnl : hrv_nonlinear_keys (rri_filter rri 1200) (some (rri.sum / 1000)) =
      Except.error PyErr.valueError := by
    simp only [hrv_nonlinear_keys]
    rw [if_pos (by simp only [durLT_some, decide_eq_true_eq]; linarith)]
  by_cases h10 : rri.sum / 1000 < 10
  · have htd : hrv_timedomain_keys (rri_filter rri 1200) (some (rri.sum / 1000)) =
        Except.error PyErr.valueError := by
      simp only [hrv_timedomain_keys]
      rw [if_pos (by simp [h10])]
    simp [hrv, parametersList, htd, hfd, hnl, catchVE, Except.map, h10]
  · have htd : hrv_timedomain_keys (rri_filter rri 1200) (some (rri.sum / 1000)) =
        Except.ok timeKeys10 := by
      have hc3 : ¬ (durGE (some (rri.sum / 1000)) 20 = true ∧
          (rri_filter rri 1200).length ≤ 1) := by
        simp only [durGE_some, decide_eq_true_eq, not_and]
        intro h
        exact absurd h (not_le.mpr hd20)
      have hc4 : ¬ (durGE (some (rri.sum / 1000)) 90 = true ∧
          listMax (rri_filter rri 1200) ≤ listMin (rri_filter rri 1200)) := by
        simp only [durGE_some, decide_eq_true_eq, not_and]
        intro h
        exact absurd h (not_le.mpr (by linarith))
      simp only [hrv_timedomain_keys]
      rw [if_neg (by simp [h10]),
        if_neg (by simp only [durGE_some, decide_eq_true_eq, not_and]; intro _; exact hne),
        if_neg hc3, if_neg hc4]
      have h10' : (10 : ℚ) ≤ rri.sum / 1000 := not_lt.mp h10
      simp [h10', not_le.mpr hd20, not_le.mpr (show rri.sum / 1000 < 60 by linarith),
        not_le.mpr (show rri.sum / 1000 < 90 by linarith)]
    simp [hrv, parametersList, htd, hfd, hnl, catchVE, Except.map, h10, timeKeys10]

/-- Witness for C9 at `rri = [500, 520, 9000, 2000]`: 12.02 s unfiltered,
so the 10 s gate passes, although the filter keeps only `[500, 520]` —
1.02 s, far below 10 s — and the time-domain family runs on that filtered
pair and emits `hr`. -/
theorem hrv_duration_before_filter_wit :
    (rri_filter [500, 520, 9000, 2000] 1200 ≠ [] ∧
      ([500, 520, 9000, 2000] : List ℚ).sum / 1000 < 20) ∧
    (rri_filter [500, 520, 9000, 2000] 1200).sum / 1000 < 10 ∧
    ¬ ([500, 520, 9000, 2000] : List ℚ).sum / 1000 < 10 ∧
    (hrv [500, 520, 9000, 2000] "auto" true).map
        (fun o => (o.rri, o.tdError, o.fdError, o.nlError, decide ("hr" ∈ o.keys))) =
      Except.ok (rri_filter [500, 520, 9000, 2000] 1200,
        decide (([500, 520, 9000, 2000] : List ℚ).sum / 1000 < 10), true, true,
        decide (¬ ([500, 520, 9000, 2000] : List ℚ).sum / 1000 < 10)) :=
  ⟨⟨by norm_num [rri_filter, List.filter]; simp, by norm_num⟩,
    by norm_num [rri_filter, List.filter],
    by norm_num,
    hrv_duration_before_filter [500, 520, 9000, 2000]
      (by norm_num [rri_filter, List.filter]; simp) (by norm_num)⟩

/-! ## The entropy estimators (hrv.py lines 704-786)

Both estimators compare Chebyshev template distances against
`r = rfac * rri.std()` with `rfac = 0.2` by default.  `std` is an irrational
square root, so the comparison is embedded in the equivalent squared form
(`matchLe`); `matchLe_iff` proves it equal to the source's comparison. -/

/-- The slice `rri[i : i+m]` for `i in range(k)` (Python's slicing also
yields short tails, and an empty list for an empty range). -/
def templates (rri : List ℚ) (m k : ℕ) : List (List ℚ) :=
  (List.range k).map (fun i => (rri.drop i).take m)

/-- `np.abs(x - y).max()`: the Chebyshev distance between two templates. -/
def chebDist (xs ys : List ℚ) : ℚ :=
  ((xs.zip ys).map (fun p => |p.1 - p.2|)).foldr max 0

/-- `np.mean`. -/
def mean (l : List ℚ) : ℚ := l.sum / l.length

/-- `np.std(l) ** 2`: the population variance (kept rational; the code's
tolerance is `rfac * sqrt(variance)`). -/
def variance (l : List ℚ) : ℚ := ((l.map (fun x => (x - mean l) ^ 2)).sum) / l.length

/-- The source's tolerance test `d <= rfac * sqrt(v)`, written in the
equivalent squared form so that it stays rational and decidable; both sides
of the source's comparison are nonnegative, and `matchLe_iff` proves the two
forms equal. -/
def matchLe (d rfac v : ℚ) : Bool := decide (d ^ 2 ≤ rfac ^ 2 * v)

/-- Template match relation of both estimators. -/
def matchT (rfac v : ℚ) (xi xj : List ℚ) : Bool := matchLe (chebDist xi xj) rfac v

/-- `matchLe` agrees with the source's comparison `d ≤ rfac * sqrt v`. -/
theorem matchLe_iff (d rfac v : ℚ) (hd : 0 ≤ d) (hr : 0 ≤ rfac) (hv : 0 ≤ v) :
    matchLe d rfac v = true ↔ (d : ℝ) ≤ (rfac : ℝ) * Real.sqrt (v : ℝ) := by
  have hv' : (0 : ℝ) ≤ (v : ℚ) := by exact_mod_cast hv
  have hr' : (0 : ℝ) ≤ (rfac : ℚ) := by exact_mod_cast hr
  have hsq : (rfac : ℝ) * Real.sqrt (v : ℝ) = Real.sqrt (((rfac ^ 2 * v : ℚ) : ℝ)) := by
    push_cast
    rw [Real.sqrt_mul (by positivity), Real.sqrt_sq hr']
  rw [matchLe, decide_eq_true_eq, hsq,
    Real.le_sqrt (by exact_mod_cast hd) (by positivity)]
  exact_mod_cast Iff.rfl

/-- Witness for `matchLe_iff` at `d = 1/10`, `rfac = 1/5`, `v = 1/4`. -/
theorem matchLe_iff_wit :
    (0 : ℚ) ≤ 1/10 ∧ (0 : ℚ) ≤ 1/5 ∧ (0 : ℚ) ≤ 1/4 ∧
    (matchLe (1/10) (1/5) (1/4) = true ↔
      ((1/10 : ℚ) : ℝ) ≤ ((1/5 : ℚ) : ℝ) * Real.sqrt ((1/4 : ℚ) : ℝ)) :=
  ⟨by norm_num, by norm_num, by norm_num,
    matchLe_iff (1/10) (1/5) (1/4) (by norm_num) (by norm_num) (by norm_num)⟩

/-- The B count of `sample_entropy` (hrv.py lines 731-736): outer templates
`xmi` over `range(n - m)`, inner `xmj` over `range(n - m + 1)`, each row
summing its matches minus one for the self-match.  (`n + 1 - m` is the
ℕ-truncated form of Python's `n - m + 1`, giving the same empty ranges for
short sequences.) -/
def sampenB (rri : List ℚ) (m : ℕ) (rfac : ℚ) : ℤ :=
  let n := rri.length
  let xmi := templates rri m (n - m)
  let xmj := templates rri m (n + 1 - m)
  (xmi.map (fun xi => (xmj.countP (matchT rfac (variance rri) xi) : ℤ) - 1)).sum

/-- The A count of `sample_entropy` (hrv.py lines 739-742): after `m += 1`
the templates `xm` run over `range(n - m)`, matched symmetrically. -/
def sampenA (rri : List ℚ) (m : ℕ) (rfac : ℚ) : ℤ :=
  let n := rri.length
  let xm := templates rri (m + 1) (n - m)
  (xm.map (fun xi => (xm.countP (matchT rfac (variance rri) xi) : ℤ) - 1)).sum

/-- `sample_entropy` (hrv.py line 745): `-np.log(a / b)`. -/
noncomputable def sample_entropy (rri : List ℚ) (m : ℕ) (rfac : ℚ) : ℝ :=
  -Real.log ((sampenA rri m rfac : ℝ) / (sampenB rri m rfac : ℝ))

/-- The per-template match counts (numerators of `C`) inside
`approximate_entropy._phi` (hrv.py lines 776-781): templates over
`range(n - m + 1)`, each counting all templates within tolerance,
self included. -/
def apEnCounts (rri : List ℚ) (m : ℕ) (rfac : ℚ) : List ℕ :=
  let x := templates rri m (rri.length + 1 - m)
  x.map (fun xi => x.countP (matchT rfac (variance rri) xi))

/-- `approximate_entropy._phi` (hrv.py line 782). -/
noncomputable def phi (rri : List ℚ) (m : ℕ) (rfac : ℚ) : ℝ :=
  ((rri.length : ℝ) - m + 1)⁻¹ *
    ((apEnCounts rri m rfac).map
      (fun c => Real.log ((c : ℝ) / ((rri.length : ℝ) - m + 1)))).sum

/-- `approximate_entropy` (hrv.py line 786): `phi(m) - phi(m + 1)`. -/
noncomputable def approximate_entropy (rri : List ℚ) (m : ℕ) (rfac : ℚ) : ℝ :=
  phi rri m rfac - phi rri (m + 1) rfac

theorem chebDist_self (xs : List ℚ) : chebDist xs xs = 0 := by
  induction xs with
  | nil => rfl
  | cons a t ih =>
    simp only [chebDist, List.zip_cons_cons, List.map_cons, List.foldr_cons] at *
    simp [ih]

theorem variance_nonneg (l : List ℚ) : 0 ≤ variance l := by
  apply div_nonneg _ (by positivity)
  exact List.sum_nonneg (by intro x hx; obtain ⟨a, _, rfl⟩ := List.mem_map.mp hx; positivity)

theorem matchT_self (rfac v : ℚ) (hv : 0 ≤ v) (xi : List ℚ) :
    matchT rfac v xi xi = true := by
  rw [matchT, chebDist_self, matchLe, decide_eq_true_eq]
  positivity

/-! ## Claim C10: the counts of `approximate_entropy` are never zero -/

/-- C10: every match count `C_i` numerator of `approximate_entropy` includes
the self-match, so it is at least 1 — for both `phi(m)` and `phi(m+1)` — and
with `n ≥ m + 1` the denominator `n - m + 1` is positive, so each
`C_i ≥ 1/(n - m + 1) > 0`: no zero denominator and no `log 0`, unlike the
`B = 0` degenerate case of sample entropy. -/
theorem approximate_entropy_counts_pos (rri : List ℚ) (m : ℕ) (rfac : ℚ)
    (h : m + 1 ≤ rri.length) :
    (∀ c ∈ apEnCounts rri m rfac, 1 ≤ c) ∧
    (∀ c ∈ apEnCounts rri (m + 1) rfac, 1 ≤ c) ∧
    (0 : ℝ) < (rri.length : ℝ) - m + 1 ∧
    (∀ c ∈ apEnCounts rri m rfac,
      (1 : ℝ) / ((rri.length : ℝ) - m + 1) ≤ (c : ℝ) / ((rri.length : ℝ) - m + 1)) := by
  have hcnt : ∀ m' : ℕ, ∀ c ∈ apEnCounts rri m' rfac, 1 ≤ c := by
    intro m' c hc
    simp only [apEnCounts] at hc
    obtain ⟨xi, hxi, rfl⟩ := List.mem_map.mp hc
    have : 0 < (templates rri m' (rri.length + 1 - m')).countP
        (matchT rfac (variance rri) xi) :=
      List.countP_pos_iff.mpr ⟨xi, hxi, matchT_self _ _ (variance_nonneg rri) xi⟩
    omega
  have hm : ((m : ℝ) + 1) ≤ (rri.length : ℝ) := by exact_mod_cast h
  have hden : (0 : ℝ) < (rri.length : ℝ) - m + 1 := by linarith
  refine ⟨hcnt m, hcnt (m + 1), hden, ?_⟩
  intro c hc
  have h1 : (1 : ℝ) ≤ (c : ℝ) := by exact_mod_cast hcnt m c hc
  gcongr

/-- Witness for C10 at `rri = [1, 2, 3, 4]`, `m = 2`, `rfac = 1/5`. -/
theorem approximate_entropy_counts_pos_wit :
    2 + 1 ≤ ([1, 2, 3, 4] : List ℚ).length ∧
    ((∀ c ∈ apEnCounts [1, 2, 3, 4] 2 (1/5), 1 ≤ c) ∧
     (∀ c ∈ apEnCounts [1, 2, 3, 4] (2 + 1) (1/5), 1 ≤ c) ∧
     (0 : ℝ) < (([1, 2, 3, 4] : List ℚ).length : ℝ) - 2 + 1 ∧
     (∀ c ∈ apEnCounts [1, 2, 3, 4] 2 (1/5),
       (1 : ℝ) / ((([1, 2, 3, 4] : List ℚ).length : ℝ) - 2 + 1) ≤
         (c : ℝ) / ((([1, 2, 3, 4] : List ℚ).length : ℝ) - 2 + 1))) :=
  ⟨by norm_num, approximate_entropy_counts_pos [1, 2, 3, 4] 2 (1/5) (by norm_num)⟩

/-! ## Claim C5: shift invariance of the entropy estimators -/

theorem templates_map_add (rri : List ℚ) (c : ℚ) (m k : ℕ) :
    templates (rri.map (fun x => x + c)) m k =
      (templates rri m k).map (fun t => t.map (fun x => x + c)) := by
  simp only [templates, List.map_map]
  apply List.map_congr_left
  intro i _
  simp [List.map_take, List.map_drop]

theorem chebDist_map_add (xs ys : List ℚ) (c : ℚ) :
    chebDist (xs.map (fun x => x + c)) (ys.map (fun x => x + c)) = chebDist xs ys := by
  simp only [chebDist, List.zip_map, List.map_map]
  congr 1
  apply List.map_congr_left
  intro p _
  simp [Prod.map]

theorem sum_map_add_const (l : List ℚ) (c : ℚ) :
    (l.map (fun x => x + c)).sum = l.sum + l.length * c := by
  induction l with
  | nil => simp
  | cons a t ih =>
    simp only [List.map_cons, List.sum_cons, List.length_cons, ih]
    push_cast
    ring

theorem variance_map_add (l : List ℚ) (c : ℚ) :
    variance (l.map (fun x => x + c)) = variance l := by
  cases l with
  | nil => simp [variance]
  | cons a t =>
    have hn : (((a :: t).length : ℚ)) ≠ 0 := by
      simp
      positivity
    have hmean : mean ((a :: t).map (fun x => x + c)) = mean (a :: t) + c := by
      rw [mean, sum_map_add_const, List.length_map, mean]
      field_simp
      ring
    rw [variance, variance, hmean, List.length_map, List.map_map]
    congr 2
    apply List.map_congr_left
    intro x _
    simp only [Function.comp_apply]
    ring

theorem matchT_map_add (rfac v c : ℚ) (xi xj : List ℚ) :
    matchT rfac v (xi.map (fun x => x + c)) (xj.map (fun x => x + c)) =
      matchT rfac v xi xj := by
  rw [matchT, matchT, chebDist_map_add]

theorem sampenB_map_add (rri : List ℚ) (c : ℚ) (m : ℕ) (rfac : ℚ) :
    sampenB (rri.map (fun x => x + c)) m rfac = sampenB rri m rfac := by
  simp only [sampenB, templates_map_add, variance_map_add, List.length_map, List.map_map]
  congr 1
  apply List.map_congr_left
  intro xi _
  simp only [Function.comp_apply]
  rw [List.countP_map]
  have hfun : (matchT rfac (variance rri) (xi.map (fun x => x + c)) ∘
      fun t => t.map (fun x => x + c)) = matchT rfac (variance rri) xi := by
    funext xj
    simpa using matchT_map_add rfac (variance rri) c xi xj
  rw [hfun]

theorem sampenA_map_add (rri : List ℚ) (c : ℚ) (m : ℕ) (rfac : ℚ) :
    sampenA (rri.map (fun x => x + c)) m rfac = sampenA rri m rfac := by
  simp only [sampenA, templates_map_add, variance_map_add, List.length_map, List.map_map]
  congr 1
  apply List.map_congr_left
  intro xi _
  simp only [Function.comp_apply]
  rw [List.countP_map]
  have hfun : (matchT rfac (variance rri) (xi.map (fun x => x + c)) ∘
      fun t => t.map (fun x => x + c)) = matchT rfac (variance rri) xi := by
    funext xj
    simpa using matchT_map_add rfac (variance rri) c xi xj
  rw [hfun]

theorem apEnCounts_map_add (rri : List ℚ) (c : ℚ) (m : ℕ) (rfac : ℚ) :
    apEnCounts (rri.map (fun x => x + c)) m rfac = apEnCounts rri m rfac := by
  simp only [apEnCounts, templates_map_add, variance_map_add, List.length_map, List.map_map]
  apply List.map_congr_left
  intro xi _
  simp only [Function.comp_apply]
  rw [List.countP_map]
  have hfun : (matchT rfac (variance rri) (xi.map (fun x => x + c)) ∘
      fun t => t.map (fun x => x + c)) = matchT rfac (variance rri) xi := by
    funext xj
    simpa using matchT_map_add rfac (variance rri) c xi xj
  rw [hfun]

/-! ## `compute_fbands` (hrv.py lines 472-527) and claim C4 -/

/-- `np.argmax`: index of the first maximal element.  The fold state is
`(best index, best value, next index)`. -/
def argmaxIdx {α : Type} [LinearOrder α] : List α → ℕ
  | [] => 0
  | x :: xs =>
    (xs.foldl
      (fun st y => if st.2.1 < y then (st.2.2, y, st.2.2 + 1) else (st.1, st.2.1, st.2.2 + 1))
      ((0 : ℕ), x, 1)).1

/-- One `(name_pwr, name_peak, name_rpwr)` row of the aggregator output. -/
structure BandEntry where
  name : String
  pwr : ℚ
  peak : ℚ
  rpwr : ℚ
  deriving Repr, DecidableEq

/-- The entry computed in the loop body of `compute_fbands` for a band with
a non-empty selection: `pwr = np.sum(powers[band]) * df`,
`peak = frequencies[band][np.argmax(powers[band])]`,
`rpwr = pwr / total_pwr` with `total_pwr = np.sum(powers) * df`. -/
def bandEntryOf (frequencies powers : List ℚ) (b : String × ℚ × ℚ) : BandEntry :=
  let df := frequencies.getD 1 0 - frequencies.getD 0 0
  let band := bandIdx frequencies b.2.1 b.2.2
  let bandPowers := band.map (fun i => powers.getD i 0)
  let pwr := bandPowers.sum * df
  let peak := frequencies.getD (band.getD (argmaxIdx bandPowers) 0) 0
  ⟨b.1, pwr, peak, pwr / (powers.sum * df)⟩

/-- `compute_fbands`: iterate over the band table (the ordered list of
`(name, (low, high))` items); bands whose selection is empty are skipped
silently (`continue`), every other band contributes its entry.  The plotting
call is a side effect and is not modelled. -/
def compute_fbands (frequencies powers : List ℚ)
    (fbands : List (String × ℚ × ℚ)) : List BandEntry :=
  fbands.filterMap (fun b =>
    if bandIdx frequencies b.2.1 b.2.2 = [] then none
    else some (bandEntryOf frequencies powers b))

theorem compute_fbands_cons (f p : List ℚ) (b : String × ℚ × ℚ)
    (bs : List (String × ℚ × ℚ)) :
    compute_fbands f p (b :: bs) =
      (if bandIdx f b.2.1 b.2.2 = [] then [] else [bandEntryOf f p b]) ++
        compute_fbands f p bs := by
  by_cases hb : bandIdx f b.2.1 b.2.2 = [] <;>
    simp [compute_fbands, List.filterMap_cons, hb]

theorem sum_map_filter_eq {α : Type} (l : List α) (q : α → Bool) (g : α → ℚ) :
    ((l.filter q).map g).sum = (l.map (fun a => if q a then g a else 0)).sum := by
  induction l with
  | nil => simp
  | cons a t ih =>
    rw [List.filter_cons]
    by_cases hq : q a <;> simp [hq, ih]

theorem sum_map_add_split {α : Type} (l : List α) (f g : α → ℚ) :
    (l.map (fun a => f a + g a)).sum = (l.map f).sum + (l.map g).sum := by
  induction l with
  | nil => simp
  | cons a t ih =>
    simp only [List.map_cons, List.sum_cons, ih]
    ring

theorem sum_map_eq_zero_iff {α : Type} (l : List α) (f : α → ℚ)
    (hf : ∀ a ∈ l, 0 ≤ f a) :
    (l.map f).sum = 0 ↔ ∀ a ∈ l, f a = 0 := by
  induction l with
  | nil => simp
  | cons a t ih =>
    rw [List.map_cons, List.sum_cons]
    have h1 : 0 ≤ f a := hf a (List.mem_cons_self a t)
    have h2 : 0 ≤ (t.map f).sum :=
      List.sum_nonneg (by
        intro x hx
        obtain ⟨b, hb, rfl⟩ := List.mem_map.mp hx
        exact hf b (List.mem_cons_of_mem a hb))
    rw [add_eq_zero_iff_of_nonneg h1 h2, ih (fun b hb => hf b (List.mem_cons_of_mem a hb))]
    simp

theorem sum_range_getD (l : List ℚ) :
    ((List.range l.length).map (fun i => l.getD i 0)).sum = l.sum := by
  induction l with
  | nil => simp
  | cons a t ih =>
    rw [List.length_cons, List.range_succ_eq_map, List.map_cons, List.map_map]
    have hcomp : ((fun i => (a :: t).getD i 0) ∘ Nat.succ) = fun i => t.getD i 0 := by
      funext i
      rfl
    simp only [List.getD_cons_zero, hcomp, List.sum_cons, ih]

theorem sum_map_div {α : Type} (l : List α) (f : α → ℚ) (s : ℚ) :
    (l.map (fun a => f a / s)).sum = (l.map f).sum / s := by
  induction l with
  | nil => simp
  | cons a t ih =>
    simp only [List.map_cons, List.sum_cons, ih]
    rw [div_add_div_same]

/-- The sum over the emitted entries of `rpwr` is the band-wise sum of
`selected power / total power` (skipped bands contribute 0 either way). -/
theorem sum_rpwr_eq (frequencies powers : List ℚ) (fbands : List (String × ℚ × ℚ))
    (hdf : frequencies.getD 1 0 - frequencies.getD 0 0 ≠ 0) :
    ((compute_fbands frequencies powers fbands).map (fun e => e.rpwr)).sum =
      (fbands.map (fun b =>
        ((bandIdx frequencies b.2.1 b.2.2).map (fun i => powers.getD i 0)).sum /
          powers.sum)).sum := by
  induction fbands with
  | nil => simp [compute_fbands]
  | cons b bs ih =>
    rw [compute_fbands_cons, List.map_append, List.sum_append, ih,
      List.map_cons, List.sum_cons]
    by_cases hb : bandIdx frequencies b.2.1 b.2.2 = []
    · rw [if_pos hb, hb]
      simp
    · rw [if_neg hb]
      simp only [List.map_cons, List.map_nil, List.sum_cons, List.sum_nil, add_zero]
      congr 1
      show (((bandIdx frequencies b.2.1 b.2.2).map (fun i => powers.getD i 0)).sum *
          (frequencies.getD 1 0 - frequencies.getD 0 0)) /
          (powers.sum * (frequencies.getD 1 0 - frequencies.getD 0 0)) = _
      rw [mul_div_mul_right _ _ hdf]

/-- Under pairwise-disjoint band selections the band-wise sums add up to a
single pass over the frequency axis. -/
theorem sum_bands_disjoint (frequencies powers : List ℚ)
    (fbands : List (String × ℚ × ℚ))
    (hdisj : fbands.Pairwise (fun b1 b2 => ∀ i ∈ List.range frequencies.length,
        inBand frequencies b1.2.1 b1.2.2 i = true →
          inBand frequencies b2.2.1 b2.2.2 i = false)) :
    (fbands.map (fun b =>
      ((List.range frequencies.length).map
        (fun i => if inBand frequencies b.2.1 b.2.2 i then powers.getD i 0 else 0)).sum)).sum =
    ((List.range frequencies.length).map
      (fun i => if fbands.any (fun b => inBand frequencies b.2.1 b.2.2 i)
        then powers.getD i 0 else 0)).sum := by
  induction fbands with
  | nil => simp
  | cons b bs ih =>
    obtain ⟨hb, hbs⟩ := List.pairwise_cons.mp hdisj
    rw [List.map_cons, List.sum_cons, ih hbs, ← sum_map_add_split]
    apply congrArg List.sum
    apply List.map_congr_left
    intro i hi
    by_cases hbi : inBand frequencies b.2.1 b.2.2 i = true
    · have hrest : bs.any (fun b' => inBand frequencies b'.2.1 b'.2.2 i) = false := by
        rw [List.any_eq_false]
        intro b' hb'
        simp [hb b' hb' i hi hbi]
      simp [hbi, hrest]
    · have hfalse : inBand frequencies b.2.1 b.2.2 i = false := by
        simpa using hbi
      simp only [List.any_cons, hfalse, Bool.false_or, Bool.false_eq_true, if_false, zero_add]

/-- C4 counterexample: with the uniformly spaced axis `[0, 1, 2]`, powers
`[1, 1, 1]` and the two *overlapping* bands `a = b = [0, 2]` (the band table
carries no disjointness invariant), each relative power is 1 and their sum
is 2 > 1. -/
theorem compute_fbands_rpwr_sum_cex :
    ¬ (((compute_fbands [0, 1, 2] [1, 1, 1]
        [("a", 0, 2), ("b", 0, 2)]).map (fun e => e.rpwr)).sum ≤ 1) := by
  have hband : bandIdx [0, 1, 2] 0 2 = [0, 1, 2] := by
    norm_num [bandIdx, inBand, List.filter, show List.range 3 = [0, 1, 2] from rfl]
  have hne : (([0, 1, 2] : List ℕ) = []) = False := by simp
  have hsum : ((compute_fbands [0, 1, 2] [1, 1, 1]
      [("a", 0, 2), ("b", 0, 2)]).map (fun e => e.rpwr)).sum = 2 := by
    rw [compute_fbands_cons, compute_fbands_cons]
    norm_num [hband, hne, bandEntryOf, compute_fbands]
  rw [hsum]
  norm_num

/-- C4 amended: if the bands' index selections are pairwise disjoint, the
power axis is nonnegative, the total power is positive and the frequency
resolution is nonzero, then the relative powers of the emitted bands sum to
at most 1, with equality exactly when every axis index selected by no band
carries zero power.  (Overlapping bands can push the sum above 1 — the table
carries no invariant — and a gap may carry zero power, so "exact tiling" is
neither necessary nor guaranteed at equality.) -/
theorem compute_fbands_rpwr_sum (frequencies powers : List ℚ)
    (fbands : List (String × ℚ × ℚ))
    (hlen : powers.length = frequencies.length)
    (hdf : frequencies.getD 1 0 - frequencies.getD 0 0 ≠ 0)
    (hp : ∀ x ∈ powers, 0 ≤ x)
    (hS : 0 < powers.sum)
    (hdisj : fbands.Pairwise (fun b1 b2 => ∀ i ∈ List.range frequencies.length,
        inBand frequencies b1.2.1 b1.2.2 i = true →
          inBand frequencies b2.2.1 b2.2.2 i = false)) :
    ((compute_fbands frequencies powers fbands).map (fun e => e.rpwr)).sum ≤ 1 ∧
    (((compute_fbands frequencies powers fbands).map (fun e => e.rpwr)).sum = 1 ↔
      ∀ i ∈ List.range frequencies.length,
        (∀ b ∈ fbands, inBand frequencies b.2.1 b.2.2 i = false) →
          powers.getD i 0 = 0) := by
  have hS' : powers.sum ≠ 0 := ne_of_gt hS
  have hgetD : ∀ i : ℕ, 0 ≤ powers.getD i 0 := by
    intro i
    by_cases hlt : i < powers.length
    · rw [List.getD_eq_getElem _ _ hlt]
      exact hp _ (List.getElem_mem hlt)
    · rw [List.getD_eq_default _ _ (le_of_not_lt hlt)]
  have key : ((compute_fbands frequencies powers fbands).map (fun e => e.rpwr)).sum =
      ((List.range frequencies.length).map
        (fun i => if fbands.any (fun b => inBand frequencies b.2.1 b.2.2 i)
          then powers.getD i 0 else 0)).sum / powers.sum := by
    rw [sum_rpwr_eq _ _ _ hdf, ← sum_bands_disjoint frequencies powers fbands hdisj,
      ← sum_map_div]
    apply congrArg List.sum
    apply List.map_congr_left
    intro b _
    congr 1
    rw [bandIdx, sum_map_filter_eq]
  have hsplit : ((List.range frequencies.length).map
        (fun i => if fbands.any (fun b => inBand frequencies b.2.1 b.2.2 i)
          then powers.getD i 0 else 0)).sum +
      ((List.range frequencies.length).map
        (fun i => if fbands.any (fun b => inBand frequencies b.2.1 b.2.2 i)
          then 0 else powers.getD i 0)).sum = powers.sum := by
    rw [← sum_map_add_split]
    rw [show ((List.range frequencies.length).map
        (fun i => (if fbands.any (fun b => inBand frequencies b.2.1 b.2.2 i)
          then powers.getD i 0 else 0) +
          (if fbands.any (fun b => inBand frequencies b.2.1 b.2.2 i)
          then 0 else powers.getD i 0))) =
        (List.range frequencies.length).map (fun i => powers.getD i 0) from ?_]
    · rw [← hlen]
      exact sum_range_getD powers
    · apply List.map_congr_left
      intro i _
      by_cases hany : fbands.any (fun b => inBand frequencies b.2.1 b.2.2 i) <;>
        simp [hany]
  constructor
  · rw [key, div_le_one hS]
    calc ((List.range frequencies.length).map
          (fun i => if fbands.any (fun b => inBand frequencies b.2.1 b.2.2 i)
            then powers.getD i 0 else 0)).sum
        ≤ ((List.range frequencies.length).map (fun i => powers.getD i 0)).sum := by
          apply List.sum_le_sum
          intro i _
          by_cases hany : fbands.any (fun b => inBand frequencies b.2.1 b.2.2 i)
          · simp [hany]
          · simp only [hany]
            simpa using hgetD i
      _ = powers.sum := by
          rw [← hlen]
          exact sum_range_getD powers
  · rw [key, div_eq_one_iff_eq hS']
    have hzero_iff : (((List.range frequencies.length).map
          (fun i => if fbands.any (fun b => inBand frequencies b.2.1 b.2.2 i)
            then 0 else powers.getD i 0)).sum = 0) ↔
        ∀ i ∈ List.range frequencies.length,
          (∀ b ∈ fbands, inBand frequencies b.2.1 b.2.2 i = false) →
            powers.getD i 0 = 0 := by
      rw [sum_map_eq_zero_iff]
      · constructor
        · intro h i hi hnone
          have hany : fbands.any (fun b => inBand frequencies b.2.1 b.2.2 i) = false := by
            rw [List.any_eq_false]
            intro b hb
            simp [hnone b hb]
          have := h i hi
          simpa [hany] using this
        · intro h i hi
          by_cases hany : fbands.any (fun b => inBand frequencies b.2.1 b.2.2 i)
          · simp [hany]
          · simp only [Bool.not_eq_true] at hany
            have hnone : ∀ b ∈ fbands, inBand frequencies b.2.1 b.2.2 i = false := by
              intro b hb
              have hb' := List.any_eq_false.mp hany b hb
              simp only [Bool.not_eq_true] at hb'
              exact hb'
            simpa [hany] using h i hi hnone
      · intro i _
        by_cases hany : fbands.any (fun b => inBand frequencies b.2.1 b.2.2 i)
        · simp [hany]
        · simp only [hany]
          simpa using hgetD i
    constructor
    · intro h
      apply hzero_iff.mp
      linarith [hsplit, h]
    · intro h
      have := hzero_iff.mpr h
      linarith [hsplit, this]

/-- Witness for C4 amended: axis `[0, 1, 2]`, powers `[1, 0, 1]`, disjoint
bands `a = [0, 0]` and `b = [2, 2]`; the uncovered index 1 carries zero
power, so the relative powers sum to exactly 1. -/
theorem compute_fbands_rpwr_sum_wit :
    (([1, 0, 1] : List ℚ).length = ([0, 1, 2] : List ℚ).length) ∧
    (([0, 1, 2] : List ℚ).getD 1 0 - ([0, 1, 2] : List ℚ).getD 0 0 ≠ 0) ∧
    (∀ x ∈ ([1, 0, 1] : List ℚ), 0 ≤ x) ∧
    (0 < ([1, 0, 1] : List ℚ).sum) ∧
    (([("a", 0, 0), ("b", 2, 2)] : List (String × ℚ × ℚ)).Pairwise
      (fun b1 b2 => ∀ i ∈ List.range ([0, 1, 2] : List ℚ).length,
        inBand [0, 1, 2] b1.2.1 b1.2.2 i = true →
          inBand [0, 1, 2] b2.2.1 b2.2.2 i = false)) ∧
    (((compute_fbands [0, 1, 2] [1, 0, 1] [("a", 0, 0), ("b", 2, 2)]).map
        (fun e => e.rpwr)).sum ≤ 1 ∧
      (((compute_fbands [0, 1, 2] [1, 0, 1] [("a", 0, 0), ("b", 2, 2)]).map
          (fun e => e.rpwr)).sum = 1 ↔
        ∀ i ∈ List.range ([0, 1, 2] : List ℚ).length,
          (∀ b ∈ ([("a", 0, 0), ("b", 2, 2)] : List (String × ℚ × ℚ)),
            inBand [0, 1, 2] b.2.1 b.2.2 i = false) →
            ([1, 0, 1] : List ℚ).getD i 0 = 0)) := by
  refine ⟨by norm_num, by norm_num, ?_, by norm_num, ?_, ?_⟩
  · intro x hx
    simp only [List.mem_cons, List.not_mem_nil, or_false] at hx
    rcases hx with rfl | rfl | rfl <;> norm_num
  · norm_num [List.pairwise_cons, inBand, show List.range 3 = [0, 1, 2] from rfl]
  · exact compute_fbands_rpwr_sum [0, 1, 2] [1, 0, 1] [("a", 0, 0), ("b", 2, 2)]
      (by norm_num)
      (by norm_num)
      (by
        intro x hx
        simp only [List.mem_cons, List.not_mem_nil, or_false] at hx
        rcases hx with rfl | rfl | rfl <;> norm_num)
      (by norm_num)
      (by norm_num [List.pairwise_cons, inBand, show List.range 3 = [0, 1, 2] from rfl])

/-! ## Claim C2: what `sample_entropy`'s B actually counts

Generic counting lemmas relating the code's "sum of per-row match counts
minus the self-match" to ordered-pair counts over index ranges. -/

theorem countP_split {α : Type} (l : List α) (r q : α → Bool) :
    l.countP q = l.countP (fun a => r a && q a) + l.countP (fun a => !r a && q a) := by
  induction l with
  | nil => simp
  | cons a t ih =>
    by_cases hr : r a <;> by_cases hq : q a <;>
      simp [List.countP_cons, hr, hq, ih] <;> omega

theorem countP_eq_one_of_nodup {α : Type} [DecidableEq α] (l : List α) (i : α)
    (q : α → Bool) (hl : l.Nodup) (hi : i ∈ l) (hq : q i = true) :
    l.countP (fun a => decide (i = a) && q a) = 1 := by
  induction l with
  | nil => simp at hi
  | cons a t ih =>
    rw [List.countP_cons]
    rcases List.mem_cons.mp hi with rfl | hmem
    · have hnot : i ∉ t := (List.nodup_cons.mp hl).1
      have ht : t.countP (fun a => decide (i = a) && q a) = 0 := by
        rw [List.countP_eq_zero]
        intro a ha
        simp only [Bool.and_eq_true, decide_eq_true_eq, not_and]
        rintro rfl
        exact absurd ha hnot
      simp [ht, hq]
    · have hne : i ≠ a := by
        rintro rfl
        exact (List.nodup_cons.mp hl).1 hmem
      simp [ih (List.nodup_cons.mp hl).2 hmem, hne]

theorem countP_flatMap_pairs {α β : Type} (I : List α) (J : List β) (p : α → β → Bool) :
    ((I.flatMap (fun i => J.map (fun j => (i, j)))).countP (fun ij => p ij.1 ij.2)) =
      (I.map (fun i => J.countP (p i))).sum := by
  induction I with
  | nil => simp
  | cons a t ih =>
    simp only [List.flatMap_cons, List.countP_append, ih, List.countP_map, List.map_cons,
      List.sum_cons]
    congr 1

theorem countP_eq_range_getD {α : Type} (l : List α) (d : α) (p : α → Bool) :
    l.countP p = (List.range l.length).countP (fun i => p (l.getD i d)) := by
  induction l with
  | nil => simp
  | cons a t ih =>
    rw [List.length_cons, List.range_succ_eq_map, List.countP_cons, List.countP_cons,
      List.countP_map]
    have hcomp : ((fun i => p ((a :: t).getD i d)) ∘ Nat.succ) = fun i => p (t.getD i d) := by
      funext i
      rfl
    simp only [List.getD_cons_zero, hcomp]
    rw [ih]

theorem map_eq_map_range_getD {α β : Type} (l : List α) (d : α) (g : α → β) :
    l.map g = (List.range l.length).map (fun i => g (l.getD i d)) := by
  induction l with
  | nil => simp
  | cons a t ih =>
    rw [List.length_cons, List.range_succ_eq_map, List.map_cons, List.map_cons, List.map_map]
    have hcomp : ((fun i => g ((a :: t).getD i d)) ∘ Nat.succ) = fun i => g (t.getD i d) := by
      funext i
      rfl
    simp only [List.getD_cons_zero, hcomp]
    rw [ih]

theorem templates_length (rri : List ℚ) (m k : ℕ) : (templates rri m k).length = k := by
  simp [templates]

theorem templates_getD (rri : List ℚ) (m k i : ℕ) (h : i < k) :
    (templates rri m k).getD i [] = (rri.drop i).take m := by
  have hlen : i < (templates rri m k).length := by simpa [templates] using h
  rw [List.getD_eq_getElem _ _ hlen]
  simp [templates]

/-- The code's row-sum count equals the ordered-pair count with distinct
indices, for any pair of template lists in which the outer list is an
initial segment of the inner one (so each template matches itself and the
`- 1` removes exactly the self-pair). -/
theorem code_count_eq_pairs (ts1 ts : List (List ℚ)) (rfac v : ℚ) (hv : 0 ≤ v)
    (hlen : ts1.length ≤ ts.length)
    (hpre : ∀ i, i < ts1.length → ts1.getD i [] = ts.getD i []) :
    (ts1.map (fun xi => (ts.countP (matchT rfac v xi) : ℤ) - 1)).sum =
      (((List.range ts1.length).flatMap
          (fun i => (List.range ts.length).map (fun j => (i, j)))).countP
        (fun ij => decide (ij.1 ≠ ij.2) &&
          matchT rfac v (ts1.getD ij.1 []) (ts.getD ij.2 [])) : ℤ) := by
  have hpairs :
      (((List.range ts1.length).flatMap
          (fun i => (List.range ts.length).map (fun j => (i, j)))).countP
        (fun ij => decide (ij.1 ≠ ij.2) &&
          matchT rfac v (ts1.getD ij.1 []) (ts.getD ij.2 []))) =
      ((List.range ts1.length).map
        (fun i => (List.range ts.length).countP
          (fun j => decide (i ≠ j) && matchT rfac v (ts1.getD i []) (ts.getD j [])))).sum :=
    countP_flatMap_pairs (List.range ts1.length) (List.range ts.length)
      (fun a b => decide (a ≠ b) && matchT rfac v (ts1.getD a []) (ts.getD b []))
  rw [hpairs, Nat.cast_list_sum, List.map_map,
    map_eq_map_range_getD ts1 [] (fun xi => (ts.countP (matchT rfac v xi) : ℤ) - 1)]
  apply congrArg List.sum
  apply List.map_congr_left
  intro i hi
  have hi1 : i < ts1.length := List.mem_range.mp hi
  have hij : i < ts.length := lt_of_lt_of_le hi1 hlen
  simp only [Function.comp_apply]
  rw [hpre i hi1, countP_eq_range_getD ts [] (matchT rfac v (ts.getD i []))]
  have hone : (List.range ts.length).countP
      (fun j => decide (i = j) && matchT rfac v (ts.getD i []) (ts.getD j [])) = 1 :=
    countP_eq_one_of_nodup _ i _ (List.nodup_range _) (List.mem_range.mpr hij)
      (matchT_self rfac v hv _)
  have hneg : (List.range ts.length).countP
        (fun j => decide (i ≠ j) && matchT rfac v (ts.getD i []) (ts.getD j [])) =
      (List.range ts.length).countP
        (fun j => !decide (i = j) && matchT rfac v (ts.getD i []) (ts.getD j [])) := by
    apply List.countP_congr
    intro a _
    simp [decide_not]
  rw [hneg, countP_split (List.range ts.length) (fun j => decide (i = j))
    (fun j => matchT rfac v (ts.getD i []) (ts.getD j [])), hone]
  push_cast
  ring

/-- Written from the spec's words for claim C2: the number of ordered pairs
of *distinct* length-`m` subsequences of `rri` (there are `n - m + 1` of
them) whose Chebyshev distance is within the tolerance. -/
def specMatchPairs (rri : List ℚ) (m : ℕ) (rfac : ℚ) : ℕ :=
  let ts := templates rri m (rri.length + 1 - m)
  ((List.range ts.length).flatMap
      (fun i => (List.range ts.length).map (fun j => (i, j)))).countP
    (fun ij => decide (ij.1 ≠ ij.2) &&
      matchT rfac (variance rri) (ts.getD ij.1 []) (ts.getD ij.2 []))

/-- The pair count that `sample_entropy`'s B actually realises: the first
index ranges only over the first `n - m` length-`m` subsequences, the second
over all `n - m + 1` of them. -/
def asymMatchPairs (rri : List ℚ) (m : ℕ) (rfac : ℚ) : ℕ :=
  let tsI := templates rri m (rri.length - m)
  let tsJ := templates rri m (rri.length + 1 - m)
  ((List.range tsI.length).flatMap
      (fun i => (List.range tsJ.length).map (fun j => (i, j)))).countP
    (fun ij => decide (ij.1 ≠ ij.2) &&
      matchT rfac (variance rri) (tsI.getD ij.1 []) (tsJ.getD ij.2 []))

theorem sampenB_eq_asym (rri : List ℚ) (m : ℕ) (rfac : ℚ) :
    sampenB rri m rfac = (asymMatchPairs rri m rfac : ℤ) := by
  simp only [sampenB, asymMatchPairs]
  apply code_count_eq_pairs _ _ rfac (variance rri) (variance_nonneg rri)
  · rw [templates_length, templates_length]
    omega
  · intro i hi
    rw [templates_length] at hi
    rw [templates_getD _ _ _ _ hi, templates_getD _ _ _ _ (by omega)]

theorem sampenA_eq_spec (rri : List ℚ) (m : ℕ) (rfac : ℚ) :
    sampenA rri m rfac = (specMatchPairs rri (m + 1) rfac : ℤ) := by
  have hk : rri.length + 1 - (m + 1) = rri.length - m := by omega
  simp only [sampenA, specMatchPairs, hk]
  apply code_count_eq_pairs _ _ rfac (variance rri) (variance_nonneg rri) le_rfl
  intro i _
  rfl

/-- C2 counterexample: at `rri = [1, 2, 1, 2, 1, 2]`, `m = 2`,
`r = 0.2 * std` (`std = 1/2`, so `r = 1/10`), the code's B is 6 while the
claimed count over *all* five length-2 subsequences is 8 (the code's outer
loop omits the last subsequence), so `sample_entropy` returns
`-ln(4/6) ≠ -ln(4/8)`. -/
theorem sample_entropy_specB_cex :
    sample_entropy [1, 2, 1, 2, 1, 2] 2 (1/5) ≠
      -Real.log ((specMatchPairs [1, 2, 1, 2, 1, 2] (2 + 1) (1/5) : ℝ) /
        (specMatchPairs [1, 2, 1, 2, 1, 2] 2 (1/5) : ℝ)) := by
  have hv : variance [1, 2, 1, 2, 1, 2] = 1/4 := by norm_num [variance, mean]
  have ht3 : templates [1, 2, 1, 2, 1, 2] 3 4 =
      ([[1,2,1],[2,1,2],[1,2,1],[2,1,2]] : List (List ℚ)) := rfl
  have ht2 : templates [1, 2, 1, 2, 1, 2] 2 5 =
      ([[1,2],[2,1],[1,2],[2,1],[1,2]] : List (List ℚ)) := rfl
  have ht2' : templates [1, 2, 1, 2, 1, 2] 2 4 =
      ([[1,2],[2,1],[1,2],[2,1]] : List (List ℚ)) := rfl
  have hA : sampenA [1, 2, 1, 2, 1, 2] 2 (1/5) = 4 := by
    simp only [sampenA, List.length_cons, List.length_nil, hv]
    norm_num [ht3, matchT, matchLe, chebDist, List.countP_cons]
  have hB : sampenB [1, 2, 1, 2, 1, 2] 2 (1/5) = 6 := by
    simp only [sampenB, List.length_cons, List.length_nil, hv]
    norm_num [ht2, ht2', matchT, matchLe, chebDist, List.countP_cons]
  have hSA : specMatchPairs [1, 2, 1, 2, 1, 2] (2 + 1) (1/5) = 4 := by
    simp only [specMatchPairs, List.length_cons, List.length_nil, hv]
    norm_num [ht3, templates_length, matchT, matchLe, chebDist, List.countP_cons,
      List.flatMap_cons, List.range_succ]
  have hSB : specMatchPairs [1, 2, 1, 2, 1, 2] 2 (1/5) = 8 := by
    simp only [specMatchPairs, List.length_cons, List.length_nil, hv]
    norm_num [ht2, templates_length, matchT, matchLe, chebDist, List.countP_cons,
      List.flatMap_cons, List.range_succ]
  rw [sample_entropy, hA, hB, hSA, hSB]
  intro h
  rw [neg_inj] at h
  have h1 : ((4 : ℤ) : ℝ) / ((6 : ℤ) : ℝ) = 2/3 := by norm_num
  have h2 : ((4 : ℕ) : ℝ) / ((8 : ℕ) : ℝ) = 1/2 := by norm_num
  rw [h1, h2] at h
  have hlt : Real.log (1/2 : ℝ) < Real.log (2/3 : ℝ) :=
    Real.log_lt_log (by norm_num) (by norm_num)
  rw [h] at hlt
  exact lt_irrefl _ hlt

/-- C2 amended: for every RRI sequence, embedding dimension `m` and
tolerance factor, `sample_entropy` returns `-ln(A/B)` where `A` is — as the
claim states — the number of ordered pairs of distinct length-`(m+1)`
subsequences within Chebyshev distance `r`, but `B` counts the ordered pairs
`(i, j)`, `i ≠ j`, of length-`m` subsequences in which the first index
ranges only over the first `n - m` subsequences while the second ranges over
all `n - m + 1`. -/
theorem sample_entropy_eq_pair_counts (rri : List ℚ) (m : ℕ) (rfac : ℚ) :
    sample_entropy rri m rfac =
      -Real.log ((specMatchPairs rri (m + 1) rfac : ℝ) /
        (asymMatchPairs rri m rfac : ℝ)) := by
  rw [sample_entropy, sampenA_eq_spec, sampenB_eq_asym]
  push_cast
  rfl

/-- C5: both entropy estimators are invariant under adding a constant to
every RR interval — the template distances and the tolerance
`rfac * std(rri)` only involve differences, so all the counts agree. -/
theorem entropies_shift_invariant (rri : List ℚ) (c : ℚ) (m : ℕ) (rfac : ℚ) :
    sample_entropy (rri.map (fun x => x + c)) m rfac = sample_entropy rri m rfac ∧
    approximate_entropy (rri.map (fun x => x + c)) m rfac =
      approximate_entropy rri m rfac := by
  constructor
  · rw [sample_entropy, sample_entropy, sampenA_map_add, sampenB_map_add]
  · rw [approximate_entropy, approximate_entropy, phi, phi, phi, phi,
      apEnCounts_map_add, apEnCounts_map_add, List.length_map]

/-! ## `compute_geometrical` (hrv.py lines 581-657) and claim C3

The triangle search works on IEEE doubles where a residual can be `nan`
(scipy's linear `interp1d` divides by a zero knot spacing when the candidate
left edge `n_` coincides with `tmin`; the two coinciding knots carry equal
`y`-values, so the slope is `0/0 = nan`).  `FVal` models a float that may be
nan.  A nan (or infinite) residual never satisfies the strict
`error < error_min` comparison, so returning nan for every zero-denominator
slope is observationally identical inside this function. -/

/-- A float that may be `nan`. -/
inductive FVal where
  | nan : FVal
  | val : ℚ → FVal
  deriving Repr, DecidableEq

/-- Float subtraction `a - b` with nan propagation. -/
def fSub (a : ℚ) : FVal → FVal
  | FVal.nan => FVal.nan
  | FVal.val q => FVal.val (a - q)

/-- Float squaring with nan propagation. -/
def fSq : FVal → FVal
  | FVal.nan => FVal.nan
  | FVal.val q => FVal.val (q ^ 2)

/-- Float addition with nan propagation. -/
def fAdd : FVal → FVal → FVal
  | FVal.val a, FVal.val b => FVal.val (a + b)
  | _, _ => FVal.nan

/-- `np.sum` over possibly-nan values. -/
def fSum (l : List FVal) : FVal := l.foldl fAdd (FVal.val 0)

/-- `error < error_min` where `error_min` starts at `np.inf` (`none`). -/
def fLtInf (e : ℚ) : Option ℚ → Bool
  | none => true
  | some m => decide (e < m)

/-- `np.arange(start, stop, step)` for a positive step:
`start + i * step` for `i < ⌈(stop - start) / step⌉`. -/
def arangeQ (start stop step : ℚ) : List ℚ :=
  (List.range (⌈(stop - start) / step⌉.toNat)).map (fun i : ℕ => start + (i : ℚ) * step)

/-- `np.histogram(rri, bins)` with explicit edges: bin `i` counts the values
in `[e_i, e_{i+1})`, except the last bin which is closed on the right. -/
def histCounts (rri : List ℚ) (edges : List ℚ) : List ℕ :=
  (List.range (edges.length - 1)).map (fun i =>
    if i = edges.length - 2 then
      rri.countP (fun x => decide (edges.getD i 0 ≤ x) && decide (x ≤ edges.getD (i + 1) 0))
    else
      rri.countP (fun x => decide (edges.getD i 0 ≤ x) && decide (x < edges.getD (i + 1) 0)))

/-- `np.max` over a count array; junk value `0` for the empty list. -/
def listMaxN : List ℕ → ℕ
  | [] => 0
  | x :: xs => xs.foldl max x

/-- `scipy.interpolate.interp1d(t, y, 'linear')` evaluated at `v`:
searchsorted (side `left`) clipped to `[1, len - 1]`, then the two-point
slope formula; a zero-width interval yields nan (see the section comment). -/
def interpLin (ts ys : List ℚ) (v : ℚ) : FVal :=
  let idx := min (max (ts.countP (fun t => decide (t < v))) 1) (ts.length - 1)
  let t0 := ts.getD (idx - 1) 0
  let t1 := ts.getD idx 0
  let y0 := ys.getD (idx - 1) 0
  let y1 := ys.getD idx 0
  if t1 - t0 = 0 then FVal.nan
  else FVal.val (y0 + (y1 - y0) / (t1 - t0) * (v - t0))

/-- The residual of the candidate pair `(a, b) = (n_, m_)` (hrv.py lines
631-637): interpolate the 5-knot triangle template
`t = [tmin, n_, bins[peak], m_, tmax + binsize]`, `y = [0, 0, max_count, 0, 0]`
onto the bin edges, drop the last edge (`q[:-1]`), and sum the squared
differences against the observed counts; nan propagates. -/
def triErr (bins : List ℚ) (counts : List ℕ) (tmin tmax h : ℚ) (peak maxc : ℕ)
    (a b : ℚ) : FVal :=
  let t := [tmin, a, bins.getD peak 0, b, tmax + h]
  let y : List ℚ := [0, 0, (maxc : ℚ), 0, 0]
  fSum (((bins.take (bins.length - 1)).zip counts).map
    (fun p => fSq (fSub (p.2 : ℚ) (interpLin t y p.1))))

/-- One step of the best-fit accumulator (`if error < error_min`): state is
`(error_min, n, m)`; the tracked `q_hist` is only used for plotting and is
not modelled. -/
def geoStep (score : ℚ → ℚ → FVal) (st : Option ℚ × ℚ × ℚ) (p : ℚ × ℚ) :
    Option ℚ × ℚ × ℚ :=
  match score p.1 p.2 with
  | FVal.nan => st
  | FVal.val e => if fLtInf e st.1 then (some e, p.1, p.2) else st

/-- `compute_geometrical`: histogram over
`np.arange(tmin, tmax + binsize, binsize)` (binsize converted to ms),
`hti = len(rri) / max_count`, then the exhaustive triangle search over
`n_values = bins[:peak_hist]` and `m_values = bins[peak_hist + 1:]` starting
from `error_min = inf, n = 0, m = 0`; returns `(hti, tinn)` with
`tinn = m - n`.  The plotting call is a side effect and is not modelled. -/
def compute_geometrical (rri : List ℚ) (binsize : ℚ) : ℚ × ℚ :=
  let h := binsize * 1000
  let tmin := listMin rri
  let tmax := listMax rri
  let bins := arangeQ tmin (tmax + h) h
  let counts := histCounts rri bins
  let max_count := listMaxN counts
  let peak_hist := argmaxIdx counts
  let hti := (rri.length : ℚ) / (max_count : ℚ)
  let n_values := bins.take peak_hist
  let m_values := bins.drop (peak_hist + 1)
  let pairs := n_values.flatMap (fun a => m_values.map (fun b => (a, b)))
  let res := pairs.foldl
    (geoStep (triErr bins counts tmin tmax h peak_hist max_count)) (none, 0, 0)
  (hti, res.2.2 - res.2.1)

theorem geoStep_snd (score : ℚ → ℚ → FVal) (st : Option ℚ × ℚ × ℚ) (p : ℚ × ℚ) :
    (geoStep score st p).2 = st.2 ∨ (geoStep score st p).2 = p := by
  rw [geoStep]
  cases score p.1 p.2 with
  | nan => exact Or.inl rfl
  | val e =>
    by_cases hlt : fLtInf e st.1 = true
    · right
      simp [hlt]
    · left
      simp [hlt]

theorem geoFold_snd (score : ℚ → ℚ → FVal) (ps : List (ℚ × ℚ))
    (st : Option ℚ × ℚ × ℚ) :
    (ps.foldl (geoStep score) st).2 = st.2 ∨ (ps.foldl (geoStep score) st).2 ∈ ps := by
  induction ps generalizing st with
  | nil => exact Or.inl rfl
  | cons p ps ih =>
    rw [List.foldl_cons]
    rcases ih (geoStep score st p) with h | h
    · rcases geoStep_snd score st p with h2 | h2
      · exact Or.inl (h.trans h2)
      · refine Or.inr ?_
        rw [h, h2]
        exact List.mem_cons_self p ps
    · exact Or.inr (List.mem_cons_of_mem p h)

theorem arangeQ_sorted (start stop step : ℚ) (hstep : 0 < step) :
    (arangeQ start stop step).Pairwise (· < ·) := by
  rw [arangeQ]
  refine List.Pairwise.map (fun i : ℕ => start + i * step) ?_ (List.pairwise_lt_range _)
  intro a b hab
  show start + (a : ℚ) * step < start + (b : ℚ) * step
  have hab' : (a : ℚ) < b := by exact_mod_cast hab
  have := mul_lt_mul_of_pos_right hab' hstep
  linarith

theorem take_lt_drop (l : List ℚ) (k : ℕ) (hl : l.Pairwise (· < ·))
    (x : ℚ) (hx : x ∈ l.take k) (y : ℚ) (hy : y ∈ l.drop (k + 1)) : x < y := by
  have h2 : (l.take k ++ l.drop k).Pairwise (fun a b => a < b) := by
    rwa [List.take_append_drop]
  have hmem : y ∈ l.drop k := by
    have h1 : l.drop (k + 1) = List.drop 1 (l.drop k) := (List.drop_drop 1 k l).symm
    rw [h1] at hy
    exact (List.drop_sublist 1 (l.drop k)).mem hy
  exact (List.pairwise_append.mp h2).2.2 x hx y hmem

theorem mem_pair_flatMap {p : ℚ × ℚ} {l1 l2 : List ℚ}
    (h : p ∈ l1.flatMap (fun a => l2.map (fun b => (a, b)))) :
    p.1 ∈ l1 ∧ p.2 ∈ l2 := by
  rw [List.mem_flatMap] at h
  obtain ⟨a, ha, hm⟩ := h
  rw [List.mem_map] at hm
  obtain ⟨b, hb, rfl⟩ := hm
  exact ⟨ha, hb⟩

/-- The search outcome: either no pair was ever selected (state still
`(inf, 0, 0)`, difference 0) or the selected pair satisfies `n < m`, so
`tinn = m - n ≥ 0`; and with the peak in bin 0 the candidate list of left
edges is empty, so `tinn = 0`. -/
theorem geo_search_tinn (score : ℚ → ℚ → FVal) (bins : List ℚ) (k : ℕ)
    (hsort : bins.Pairwise (· < ·)) :
    (0 ≤ (((bins.take k).flatMap
        (fun a => (bins.drop (k + 1)).map (fun b => (a, b)))).foldl
          (geoStep score) (none, 0, 0)).2.2 -
      (((bins.take k).flatMap
        (fun a => (bins.drop (k + 1)).map (fun b => (a, b)))).foldl
          (geoStep score) (none, 0, 0)).2.1) ∧
    (k = 0 →
      (((bins.take k).flatMap
          (fun a => (bins.drop (k + 1)).map (fun b => (a, b)))).foldl
            (geoStep score) (none, 0, 0)).2.2 -
        (((bins.take k).flatMap
          (fun a => (bins.drop (k + 1)).map (fun b => (a, b)))).foldl
            (geoStep score) (none, 0, 0)).2.1 = 0) := by
  constructor
  · rcases geoFold_snd score
        ((bins.take k).flatMap (fun a => (bins.drop (k + 1)).map (fun b => (a, b))))
        (none, 0, 0) with h | h
    · rw [h]
      norm_num
    · obtain ⟨hx, hy⟩ := mem_pair_flatMap h
      have hlt := take_lt_drop bins k hsort _ hx _ hy
      linarith
  · intro hk
    subst hk
    simp

/-- Witness for `matchLe_iff`-style hypotheses is not needed here; C3
counterexample: for `rri = [500, 500, 520]` ms with the default bin size the
histogram has three bins with counts `[2, 0, 1]`; the peak is the *first*
bin, the candidate left-edge list `bins[:0]` is empty, and TINN is 0 even
though the histogram is not a single-bin histogram. -/
theorem compute_geometrical_tinn_cex :
    (compute_geometrical [500, 500, 520] (1/128)).2 = 0 ∧
    (histCounts [500, 500, 520]
      (arangeQ (listMin [500, 500, 520])
        (listMax [500, 500, 520] + (1/128) * 1000) ((1/128) * 1000))).length = 3 := by
  have hmin : listMin [500, 500, 520] = 500 := by
    norm_num [listMin]
  have hmax : listMax [500, 500, 520] = 520 := by
    norm_num [listMax]
  have hcnt : (⌈((520 + (1/128 : ℚ) * 1000) - 500) / ((1/128 : ℚ) * 1000)⌉).toNat = 4 := by
    rw [show ((520 + (1/128 : ℚ) * 1000) - 500) / ((1/128 : ℚ) * 1000) = 89/25 by norm_num]
    have h4 : ⌈(89/25 : ℚ)⌉ = 4 := by
      rw [Int.ceil_eq_iff]
      norm_num
    rw [h4]
    rfl
  have hbins : arangeQ 500 (520 + (1/128 : ℚ) * 1000) ((1/128 : ℚ) * 1000) =
      [500, 8125/16, 4125/8, 8375/16] := by
    rw [arangeQ, hcnt, show List.range 4 = [0, 1, 2, 3] from rfl]
    norm_num
  have hcounts : histCounts [500, 500, 520] [500, 8125/16, 4125/8, 8375/16] = [2, 0, 1] := by
    norm_num [histCounts, show List.range 3 = [0, 1, 2] from rfl, List.countP_cons,
      List.countP_nil]
  constructor
  · have hsort : (arangeQ 500 (520 + (1/128 : ℚ) * 1000) ((1/128 : ℚ) * 1000)).Pairwise
        (· < ·) :=
      arangeQ_sorted _ _ _ (by norm_num)
    simp only [compute_geometrical, hmin, hmax, hbins, hcounts]
    rw [show argmaxIdx ([2, 0, 1] : List ℕ) = 0 from rfl]
    simp [geoStep]
  · rw [hmin, hmax, hbins, hcounts]
    rfl

/-- C3 amended: TINN is always nonnegative — any selected pair has its left
edge strictly before the peak edge and its right edge strictly after, and
when no pair is ever selected the initial `n = m = 0` gives `TINN = 0` — but
`TINN = 0` is *not* confined to single-bin histograms: whenever the
histogram peak falls in the first bin the candidate left-edge list
`bins[:peak]` is empty, the search never runs, and `TINN = 0` regardless of
the number of bins. -/
theorem compute_geometrical_tinn (rri : List ℚ) (binsize : ℚ) (hb : 0 < binsize) :
    0 ≤ (compute_geometrical rri binsize).2 ∧
    (argmaxIdx (histCounts rri
        (arangeQ (listMin rri) (listMax rri + binsize * 1000) (binsize * 1000))) = 0 →
      (compute_geometrical rri binsize).2 = 0) := by
  have hstep : (0 : ℚ) < binsize * 1000 := by positivity
  have hsort := arangeQ_sorted (listMin rri) (listMax rri + binsize * 1000)
    (binsize * 1000) hstep
  constructor
  · simp only [compute_geometrical]
    exact (geo_search_tinn _ _ _ hsort).1
  · intro hpk
    simp only [compute_geometrical]
    rw [hpk]
    exact (geo_search_tinn _ _ 0 hsort).2 rfl

/-- Witness for C3 amended at `rri = [800, 810]`, default bin size. -/
theorem compute_geometrical_tinn_wit :
    (0 : ℚ) < 1/128 ∧
    (0 ≤ (compute_geometrical [800, 810] (1/128)).2 ∧
      (argmaxIdx (histCounts [800, 810]
          (arangeQ (listMin [800, 810])
            (listMax [800, 810] + (1/128) * 1000) ((1/128) * 1000))) = 0 →
        (compute_geometrical [800, 810] (1/128)).2 = 0)) :=
  ⟨by norm_num, compute_geometrical_tinn [800, 810] (1/128) (by norm_num)⟩

end HRV
